import Mathlib

/-!
Verification of the translation-validation engine (`tc`): a shallow embedding
of `src/sexp.rs`, `src/z3_decl.rs`, `src/interpret.rs` and `src/main.rs` in
Lean 4, together with theorems settling the specification claims.

Modelling conventions:
* Rust `usize`/`u64` values are modelled as `Nat`; the places where the source
  relies on 64-bit bounds carry explicit hypotheses.
* Panics (`panic!`, `todo!`, `unimplemented!`, `unreachable!`, `Option::unwrap`,
  slice indexing) are modelled by the `Panic` inductive returned through
  `Except`.  `todo!()` prints the fixed message "not yet implemented";
  `unimplemented!(args)` prints "not implemented: " followed by the formatted
  argument, which for the catch-all arms of the interpreter is the debug
  rendering of the offending construct (modelled as the string carried by the
  corresponding `other` constructor).
* The accumulated SMT-LIB script (`z3_state : String` in the source, built
  exclusively by `add_z3_line` appending the rendering of one `Sexp` plus a
  newline) is modelled as the list of appended `Sexp` forms; the third-party
  pretty-printer that turns each form into text is outside this repository.
* The two `z3` subprocess invocations and the query/result/model files of
  `check_sat` are modelled by an `Oracle : List Sexp → Bool` parameter
  (`true` answers "unsat"); the `sat` branch and the malformed-output branch
  both abort the run and are modelled by the `Panic.counterExample` value
  carrying the diagnostic label.
-/

namespace TC

/-- Digit character for values 0..15, matching Rust `{:x}` / `{}` formatting:
digits `0`-`9` then lowercase `a`-`f`. -/
def digitChar (n : Nat) : Char :=
  if n < 10 then Char.ofNat (48 + n) else Char.ofNat (87 + n)

/-- Fuel-driven digit expansion of `n` in base `b`, most significant first,
mirroring the output of Rust `format!` for `{:x}` (base 16) and `{}`
(base 10).  The fuel is always instantiated with `n + 1`, which suffices. -/
def toBaseAux (b : Nat) : Nat → Nat → List Char
  | 0, _ => []
  | fuel + 1, n =>
    if n < b then [digitChar n]
    else toBaseAux b fuel (n / b) ++ [digitChar (n % b)]

/-- Hex digits of `n`, lowercase, no leading zeros: Rust `format!("\x7b:x\x7d", n)`. -/
def toHexChars (n : Nat) : List Char := toBaseAux 16 (n + 1) n

/-- Decimal digits of `n`: Rust `n.to_string()`. -/
def decChars (n : Nat) : List Char := toBaseAux 10 (n + 1) n

/-- Decimal rendering of a `Nat` as a string (Rust `usize::to_string`). -/
def decRepr (n : Nat) : String := String.mk (decChars n)

/-- Numeric value of a digit character (inverse of `digitChar`). -/
def digitVal (c : Char) : Nat :=
  if 97 ≤ c.toNat then c.toNat - 87 else c.toNat - 48

/-- Value of a most-significant-first digit string in base `b`. -/
def baseVal (b : Nat) (l : List Char) : Nat :=
  l.foldl (fun a c => a * b + digitVal c) 0

/-- Recogniser for lowercase hexadecimal digit characters. -/
def isHexDigitC (c : Char) : Bool :=
  (48 ≤ c.toNat && c.toNat ≤ 57) || (97 ≤ c.toNat && c.toNat ≤ 102)

/-- Recogniser for decimal digit characters. -/
def isDecDigitC (c : Char) : Bool :=
  48 ≤ c.toNat && c.toNat ≤ 57

/-- The s-expression tree of `src/sexp.rs`: an atom holding its text verbatim,
or a list of s-expressions. -/
inductive Sexp
  | Atom (s : String)
  | List (l : List Sexp)

/-- The `ToSexp` conversion trait of `src/sexp.rs`. -/
class ToSexp (α : Type) where
  to_sexp : α → Sexp

instance : ToSexp Sexp := ⟨id⟩

instance : ToSexp String := ⟨Sexp.Atom⟩

/-- `Sexp::s1`: one-element list constructor. -/
def Sexp.s1 [ToSexp α] (i1 : α) : Sexp :=
  Sexp.List [ToSexp.to_sexp i1]

/-- `Sexp::s2`: two-element list constructor. -/
def Sexp.s2 [ToSexp α] [ToSexp β] (i1 : α) (i2 : β) : Sexp :=
  Sexp.List [ToSexp.to_sexp i1, ToSexp.to_sexp i2]

/-- `Sexp::s3`: three-element list constructor. -/
def Sexp.s3 [ToSexp α] [ToSexp β] [ToSexp γ] (i1 : α) (i2 : β) (i3 : γ) : Sexp :=
  Sexp.List [ToSexp.to_sexp i1, ToSexp.to_sexp i2, ToSexp.to_sexp i3]

/-- `Sexp::s4`: four-element list constructor. -/
def Sexp.s4 [ToSexp α] [ToSexp β] [ToSexp γ] [ToSexp δ]
    (i1 : α) (i2 : β) (i3 : γ) (i4 : δ) : Sexp :=
  Sexp.List [ToSexp.to_sexp i1, ToSexp.to_sexp i2, ToSexp.to_sexp i3, ToSexp.to_sexp i4]

/-- Rust `String::pop`: remove the last character. -/
def strPop (s : String) : String := String.mk s.data.dropLast

-- Mutually recursive rendering of `Sexp::to_single_line` and its element
-- loop `for i in l ( r += &i.to_single_line(); r += " " )`.
mutual

def Sexp.to_single_line : Sexp → String
  | .Atom x => x
  | .List l => strPop (singleLineGo "(" l) ++ ")"

def singleLineGo : String → List Sexp → String
  | r, [] => r
  | r, i :: rest => singleLineGo (r ++ i.to_single_line ++ " ") rest

end

/-- Spec vocabulary: the elements of a list joined by single spaces. -/
def joinSpace : List String → String
  | [] => ""
  | [x] => x
  | x :: rest => x ++ " " ++ joinSpace rest

/-- `z3_decl::declare_const`. -/
def declare_const [ToSexp α] [ToSexp β] (name : α) (ty : β) : Sexp :=
  Sexp.s3 "declare-const" (ToSexp.to_sexp name) (ToSexp.to_sexp ty)

/-- `z3_decl::define_const`. -/
def define_const [ToSexp α] [ToSexp β] [ToSexp γ] (name : α) (ty : β) (value : γ) : Sexp :=
  Sexp.s4 "define-const" (ToSexp.to_sexp name) (ToSexp.to_sexp ty) (ToSexp.to_sexp value)

/-- `z3_decl::if_then_else`. -/
def if_then_else [ToSexp α] [ToSexp β] [ToSexp γ]
    (condition : α) (true_value : β) (false_value : γ) : Sexp :=
  Sexp.s4 "ite" (ToSexp.to_sexp condition) (ToSexp.to_sexp true_value)
    (ToSexp.to_sexp false_value)

/-- `z3_decl::bv_ty`. -/
def bv_ty (arg : Nat) : Sexp :=
  Sexp.s3 "_" "BitVec" (decRepr arg)

/-- `z3_decl::memory_ty`. -/
def memory_ty : Sexp :=
  Sexp.s3 "Array" (bv_ty 64) (bv_ty 8)

/-- Character list underlying `z3_decl::bv_hex`: `#x` followed by the hex
digits of `arg` left-padded with `0` to a minimum width of `size * 2`
(Rust `format!("#x\x7b:0>size$\x7d", r)`, which pads but never truncates). -/
def bvHexChars (arg size : Nat) : List Char :=
  '#' :: 'x' :: (List.replicate (size * 2 - (toHexChars arg).length) '0' ++ toHexChars arg)

/-- `z3_decl::bv_hex`. -/
def bv_hex (arg size : Nat) : Sexp :=
  Sexp.Atom (String.mk (bvHexChars arg size))

/-- `z3_decl::bit_to_byte`: ceiling division of a bit count by 8. -/
def bit_to_byte (bits : Nat) : Nat := (bits + 7) / 8

/-- IR local / global names (`llvm_ir::Name`), rendered as strings. -/
abbrev Name := String

/-- The IR types the engine meets (`llvm_ir::Type`): `other` stands for every
type outside the supported fragment and carries its debug rendering; `func`
carries an identity string standing for the structural content of the
function type (only compared for equality and sized at 8 bytes). -/
inductive Typ
  | void
  | integer (bits : Nat)
  | func (repr : String)
  | other (repr : String)
deriving DecidableEq

/-- IR operands (`llvm_ir::Operand`): local references, integer constants
(`bits` wide, value stored as `u64`), global references, other constants
outside the fragment, and metadata operands. -/
inductive Operand
  | localOperand (name : Name) (ty : Typ)
  | constInt (bits : Nat) (value : Nat)
  | constGlobalRef (name : Name) (ty : Typ)
  | constOther (repr : String)
  | metadata
deriving DecidableEq

/-- The icmp predicates of `llvm_ir::IntPredicate`. -/
inductive IntPredicate
  | EQ | NE | UGT | UGE | ULT | ULE | SGT | SGE | SLT | SLE
deriving DecidableEq

/-- A call instruction (`llvm_ir::instruction::Call`): `function` is
`Either<InlineAsm, Operand>` in the source; `none` models the inline-asm
side, on which `compare_calls` panics via `.right().unwrap()`.  The argument
list is carried but never consulted by the driver. -/
structure CallInst where
  function : Option Operand
  function_ty : Typ
  arguments : List Operand
deriving DecidableEq

/-- The IR instructions of the supported fragment plus a catch-all `other`
carrying the debug rendering used by `unimplemented!("\x7binstr:?\x7d")`. -/
inductive Instr
  | add (operand0 operand1 : Operand) (dest : Name)
  | sub (operand0 operand1 : Operand) (dest : Name)
  | and (operand0 operand1 : Operand) (dest : Name)
  | icmp (predicate : IntPredicate) (operand0 operand1 : Operand) (dest : Name)
  | select (condition true_value false_value : Operand) (dest : Name)
  | call (c : CallInst)
  | other (repr : String)
deriving DecidableEq

/-- Basic-block terminators: `Ret`, `CondBr`, and the unsupported rest
(carrying the debug rendering used by `unimplemented!("\x7b:?\x7d", bb.term)`). -/
inductive Terminator
  | ret (return_operand : Option Operand)
  | condBr (condition : Operand) (true_dest false_dest : Name)
  | other (repr : String)
deriving DecidableEq

/-- A basic block: named straight-line instructions plus one terminator. -/
structure BasicBlock where
  name : Name
  instrs : List Instr
  term : Terminator
deriving DecidableEq

/-- An IR function (`llvm_ir::Function`): name, parameters (name and type),
and basic blocks. -/
structure Function where
  name : String
  parameters : List (Name × Typ)
  basic_blocks : List BasicBlock
deriving DecidableEq

/-- The fatal-abort values of the engine.  `todoMsg` is Rust `todo!()`
(message "not yet implemented"); `unimplementedMsg s` is
`unimplemented!(...)` with formatted text `s` (message "not implemented: "
followed by `s`); `unreachableMsg` is `unreachable!()`; `unwrapNone` is
`Option::unwrap` on `None`; `indexOutOfBounds` is slice indexing out of
range; `counterExample label` is the abort of `check_sat` when the solver
does not answer `unsat` (the label is the diagnostic passed to
`check_sat`; the solver-produced model text is external). -/
inductive Panic
  | todoMsg
  | unimplementedMsg (s : String)
  | unreachableMsg
  | unwrapNone
  | indexOutOfBounds
  | counterExample (label : String)
deriving DecidableEq

deriving instance DecidableEq for Except

/-- The abort message attached to a `Panic`, as printed by Rust. -/
def Panic.message : Panic → String
  | .todoMsg => "not yet implemented"
  | .unimplementedMsg s => "not implemented: " ++ s
  | .unreachableMsg => "internal error: entered unreachable code"
  | .unwrapNone => "called `Option::unwrap()` on a `None` value"
  | .indexOutOfBounds => "index out of bounds"
  | .counterExample label => label

/-- Association-list lookup used to model `HashMap::get` on the
local-address map. -/
def lookupA : List (Name × Nat) → Name → Option Nat
  | [], _ => none
  | (k, v) :: rest, name => if k = name then some v else lookupA rest name

/-- Position of `iter().position(pred)`: index of the first element
satisfying the predicate. -/
def findIdxA : List α → (α → Bool) → Option Nat
  | [], _ => none
  | a :: rest, p => if p a then some 0 else (findIdxA rest p).map (· + 1)

/-- The verifier state of `src/main.rs` (`struct VerifierState`).  The
`RefCell<HashMap<Name, usize>>` is modelled as an insertion-ordered
association list (the source only ever inserts, and addresses depend only on
the count of earlier insertions); `z3_state` is the list of appended SMT
forms (see the module comment). -/
structure VerifierState where
  local_addresses : List (Name × Nat)
  left : Function
  right : Function
  z3_state : List Sexp
  memory_generator_counter : Nat
  intersting_consts : List String
  goal : List Sexp

/-- `VerifierState::new`. -/
def VerifierState.new (left right : Function) : VerifierState :=
  { local_addresses := []
    left := left
    right := right
    z3_state := []
    memory_generator_counter := 0
    intersting_consts := []
    goal := [] }

/-- A memory snapshot (`struct MemorySnapshot`): a generation index. -/
structure MemorySnapshot where
  index : Nat
deriving DecidableEq

/-- The `Display` rendering `memory_<index>` of a snapshot. -/
def MemorySnapshot.display (m : MemorySnapshot) : String :=
  "memory_" ++ decRepr m.index

instance : ToSexp MemorySnapshot := ⟨fun m => Sexp.Atom m.display⟩

/-- `MemorySnapshot`'s `ToSexp` conversion as a function. -/
def MemorySnapshot.toSexp (m : MemorySnapshot) : Sexp := Sexp.Atom m.display

/-- `VerifierState::add_z3_line`: append one SMT form to the script. -/
def VerifierState.add_z3_line (st : VerifierState) (arg : Sexp) : VerifierState :=
  { st with z3_state := st.z3_state ++ [arg] }

/-- `VerifierState::new_memory`: hand out the next snapshot index. -/
def VerifierState.new_memory (st : VerifierState) : VerifierState × MemorySnapshot :=
  ({ st with memory_generator_counter := st.memory_generator_counter + 1 },
    ⟨st.memory_generator_counter⟩)

/-- The page stride `ALLOCA_SIZE = 1 << 32` of `address_of_name`. -/
def ALLOCA_SIZE : Nat := 2 ^ 32

/-- `VerifierState::address_of_name`: return the cached address of `name`,
or lazily assign `(count + 5) * ALLOCA_SIZE` where `count` is the number of
names already mapped. -/
def VerifierState.address_of_name (st : VerifierState) (name : Name) :
    VerifierState × Nat :=
  match lookupA st.local_addresses name with
  | some x => (st, x)
  | none =>
    let new_addr := (st.local_addresses.length + 5) * ALLOCA_SIZE
    ({ st with local_addresses := st.local_addresses ++ [(name, new_addr)] }, new_addr)

/-- `VerifierState::size_of_ty` (a method that ignores `self`): `void` is 0
bytes, an integer takes `bit_to_byte bits`, function types are 8-byte
pointers, anything else is `todo!()`. -/
def size_of_ty : Typ → Except Panic Nat
  | .void => .ok 0
  | .integer bits => .ok (bit_to_byte bits)
  | .func _ => .ok 8
  | .other _ => .error .todoMsg

/-- `VerifierState::size_of_operand`: note that global references fall into
the `todo!()` arm here, unlike in `operand_to_sexp`. -/
def size_of_operand : Operand → Except Panic Nat
  | .localOperand _ ty => size_of_ty ty
  | .constInt bits _ => .ok (bit_to_byte bits)
  | .constGlobalRef _ _ => .error .todoMsg
  | .constOther _ => .error .todoMsg
  | .metadata => .error .todoMsg

/-- `VerifierState::load_from_addr`: a single `select` for one byte,
otherwise a `concat` of selects in reverse address order. -/
def load_from_addr (addr size : Nat) (memory : MemorySnapshot) : Sexp :=
  if size = 1 then Sexp.s3 "select" memory (bv_hex addr 8)
  else Sexp.List (ToSexp.to_sexp "concat" ::
    (List.range size).reverse.map (fun i => Sexp.s3 "select" memory (bv_hex (addr + i) 8)))

/-- The byte-`i` extraction `((_ extract (8i+7) (8i)) val)` emitted by
`store_in_addr`. -/
def extractByte (i : Nat) : Sexp :=
  Sexp.s2 (Sexp.s4 "_" "extract" (decRepr (i * 8 + 7)) (decRepr (i * 8))) "val"

/-- The nested-store expression built by the loop of `store_in_addr`:
`storeChain addr base k` stores bytes `0..k-1` of `val` at `addr..addr+k-1`,
with the store of byte `k-1` outermost. -/
def storeChain (addr : Nat) (base : Sexp) : Nat → Sexp
  | 0 => base
  | k + 1 => Sexp.s4 "store" (storeChain addr base k) (bv_hex (addr + k) 8) (extractByte k)

/-- The full defining expression `(let ((val o)) <stores>)` of a store. -/
def storeLet (addr size : Nat) (o : Sexp) (memory : MemorySnapshot) : Sexp :=
  Sexp.s3 "let" (Sexp.s1 (Sexp.s2 "val" o)) (storeChain addr memory.toSexp size)

/-- `VerifierState::store_in_addr`: allocate the next snapshot, emit its
defining `define-const`, and return it. -/
def VerifierState.store_in_addr (st : VerifierState) (addr size : Nat) (o : Sexp)
    (memory : MemorySnapshot) : VerifierState × MemorySnapshot :=
  let (st, nm) := st.new_memory
  (st.add_z3_line (define_const nm memory_ty (storeLet addr size o memory)), nm)

/-- `VerifierState::operand_to_sexp`.  Locals and global references load
their page; integer constants become hex bit-vector literals; everything
else is `todo!()`.  The source mutates the address map through a `RefCell`,
modelled by threading the state. -/
def VerifierState.operand_to_sexp (st : VerifierState) (operand : Operand)
    (memory : MemorySnapshot) : Except Panic (VerifierState × Sexp) :=
  match operand with
  | .localOperand name ty => do
    let size ← size_of_ty ty
    let (st, addr) := st.address_of_name name
    .ok (st, load_from_addr addr size memory)
  | .constInt bits value =>
    .ok (st, bv_hex value (bit_to_byte bits))
  | .constGlobalRef name ty => do
    let size ← size_of_ty ty
    let (st, addr) := st.address_of_name name
    .ok (st, load_from_addr addr size memory)
  | .constOther _ => .error .todoMsg
  | .metadata => .error .todoMsg

/-- `VerifierState::add_interesting_compare`: define `<name>_left` and
`<name>_right`, push their equation onto the goals, and record both as
interesting. -/
def VerifierState.add_interesting_compare (st : VerifierState) (name : String)
    (ty left_value right_value : Sexp) : VerifierState :=
  let name_left := name ++ "_left"
  let name_right := name ++ "_right"
  let st := st.add_z3_line (define_const name_left ty left_value)
  let st := st.add_z3_line (define_const name_right ty right_value)
  { st with
    goal := st.goal ++ [Sexp.s3 "=" name_left name_right]
    intersting_consts := st.intersting_consts ++ [name_left, name_right] }

/-- The solver abstraction: given the accumulated script, answer whether the
external `z3` run printed `unsat` (see the module comment). -/
abbrev Oracle := List Sexp → Bool

/-- `VerifierState::check_sat`: negate a single goal (two or more goals hit
`todo!()`), append `(check-sat)` and `(get-model)`, and consult the solver;
a non-`unsat` answer aborts the run with the diagnostic label. -/
def VerifierState.check_sat (st : VerifierState) (oracle : Oracle)
    (sat_message : String) : Except Panic VerifierState :=
  match st.goal with
  | [] =>
    let st := st.add_z3_line (Sexp.s1 "check-sat")
    let st := st.add_z3_line (Sexp.s1 "get-model")
    if oracle st.z3_state then .ok st else .error (.counterExample sat_message)
  | [g] =>
    let st := st.add_z3_line (Sexp.s2 "assert" (Sexp.s2 "not" g))
    let st := st.add_z3_line (Sexp.s1 "check-sat")
    let st := st.add_z3_line (Sexp.s1 "get-model")
    if oracle st.z3_state then .ok st else .error (.counterExample sat_message)
  | _ => .error .todoMsg

/-- `VerifierState::compare_returns`, instrumented: besides the final state
(or panic), it returns the list of goal-list lengths observed at each
`check_sat` entry (empty when no query happens).  When either return
operand is absent the function returns at once. -/
def VerifierState.compare_returns (st : VerifierState) (oracle : Oracle)
    (left_op right_op : Option Operand) (left_memory right_memory : MemorySnapshot) :
    Except Panic VerifierState × List Nat :=
  match left_op, right_op with
  | some lop, some rop =>
    (match st.operand_to_sexp lop left_memory with
     | .error e => (.error e, [])
     | .ok (st, left_value) =>
       match st.operand_to_sexp rop right_memory with
       | .error e => (.error e, [])
       | .ok (st, right_value) =>
         match size_of_operand lop with
         | .error e => (.error e, [])
         | .ok size =>
           let st := st.add_interesting_compare "return" (bv_ty (size * 8))
             left_value right_value
           (st.check_sat oracle "Return with different values", [st.goal.length]))
  | _, _ => (.ok st, [])

/-- The label of the mismatched-signature abort of `compare_calls` (the
source formats the two `llvm_ir` types with their Debug and Display
instances, abstracted by the identity strings of the modelled types). -/
def mismatchLabel (left_ty right_ty : Typ) : String :=
  "Mismatched function call.\nLeft called function with signature " ++
    (match left_ty with
     | .void => "void" | .integer _ => "int" | .func r => r | .other r => r) ++
    "\nRight called function with signature " ++
    (match right_ty with
     | .void => "void" | .integer _ => "int" | .func r => r | .other r => r)

/-- `VerifierState::compare_calls`, instrumented like `compare_returns`.
With differing call-site function types the oracle is consulted on the
current goals; otherwise the two callee addresses are bound, their equation
pushed, and the oracle consulted. -/
def VerifierState.compare_calls (st : VerifierState) (oracle : Oracle)
    (left_call right_call : CallInst) (left_memory right_memory : MemorySnapshot) :
    Except Panic VerifierState × List Nat :=
  if left_call.function_ty ≠ right_call.function_ty then
    (st.check_sat oracle (mismatchLabel left_call.function_ty right_call.function_ty),
      [st.goal.length])
  else
    match left_call.function with
    | none => (.error .unwrapNone, [])
    | some lf =>
      match st.operand_to_sexp lf left_memory with
      | .error e => (.error e, [])
      | .ok (st, left_value) =>
        match right_call.function with
        | none => (.error .unwrapNone, [])
        | some rf =>
          match st.operand_to_sexp rf right_memory with
          | .error e => (.error e, [])
          | .ok (st, right_value) =>
            let st := st.add_interesting_compare "function" (bv_ty 64)
              left_value right_value
            (st.check_sat oracle "Mismatched function or arguments", [st.goal.length])

/-- An execution position (`interpret::Position`): basic-block index and
instruction index within the block (`instr = len` meaning "at terminator"). -/
structure Position where
  bb : Nat
  instr : Nat
deriving DecidableEq

/-- The effects yielded by the stepper (`interpret::Effect`). -/
inductive Effect
  | Call (return_pos : Position) (call : CallInst)
  | Return (op : Option Operand)
  | CondBr (condition : Operand) (true_dest false_dest : Name)

/-- The `<pred-op>` table of the icmp arm of `run_until_effect`; `NE` is the
`todo!()` arm and is handled before this function is consulted. -/
def predStr : IntPredicate → String
  | .EQ => "="
  | .NE => "="
  | .UGT => "bvugt"
  | .UGE => "bvuge"
  | .ULT => "bvult"
  | .ULE => "bvule"
  | .SGT => "bvsgt"
  | .SGE => "bvsge"
  | .SLT => "bvslt"
  | .SLE => "bvsle"

/-- The `binop_instr!` macro body of `run_until_effect`: evaluate both
operands, apply the SMT operation, and store the result at the
destination's address with the width of operand 0. -/
def VerifierState.binop_instr (st : VerifierState) (z3fn : String)
    (operand0 operand1 : Operand) (dest : Name) (memory : MemorySnapshot) :
    Except Panic (VerifierState × MemorySnapshot) := do
  let (st, o0) ← st.operand_to_sexp operand0 memory
  let (st, o1) ← st.operand_to_sexp operand1 memory
  let o := Sexp.s3 z3fn o0 o1
  let size ← size_of_operand operand0
  let (st, addr) := st.address_of_name dest
  .ok (st.store_in_addr addr size o memory)

/-- One step of the instruction loop of `run_until_effect`: either an effect
(`Call`), a panic, or the updated state and memory. -/
def runInstr (st : VerifierState) (bbIdx instrId : Nat) (instr : Instr)
    (memory : MemorySnapshot) :
    Except Panic (VerifierState × MemorySnapshot × Option Effect) :=
  match instr with
  | .add operand0 operand1 dest => do
    let (st, memory) ← st.binop_instr "bvadd" operand0 operand1 dest memory
    .ok (st, memory, none)
  | .and operand0 operand1 dest => do
    let (st, memory) ← st.binop_instr "bvand" operand0 operand1 dest memory
    .ok (st, memory, none)
  | .sub operand0 operand1 dest => do
    let (st, memory) ← st.binop_instr "bvsub" operand0 operand1 dest memory
    .ok (st, memory, none)
  | .icmp predicate operand0 operand1 dest =>
    match predicate with
    | .NE => .error .todoMsg
    | p => do
      let operation := predStr p
      let (st, o0) ← st.operand_to_sexp operand0 memory
      let (st, o1) ← st.operand_to_sexp operand1 memory
      let r := if_then_else (Sexp.s3 operation o0 o1) "#x01" "#x00"
      let (st, addr) := st.address_of_name dest
      let (st, memory) := st.store_in_addr addr 1 r memory
      .ok (st, memory, none)
  | .select condition true_value false_value dest => do
    let (st, cond) ← st.operand_to_sexp condition memory
    let (st, otrue) ← st.operand_to_sexp true_value memory
    let (st, ofalse) ← st.operand_to_sexp false_value memory
    let r := if_then_else (Sexp.s3 "=" cond "#x00") ofalse otrue
    let (st, addr) := st.address_of_name dest
    let size ← size_of_operand true_value
    let (st, memory) := st.store_in_addr addr size r memory
    .ok (st, memory, none)
  | .call c =>
    .ok (st, memory, some (.Call ⟨bbIdx, instrId + 1⟩ c))
  | .other repr => .error (.unimplementedMsg repr)

/-- The instruction loop of `run_until_effect` over the remaining
instructions of the current block (`instrId` is the original index of the
head instruction). -/
def runInstrs (st : VerifierState) (bbIdx instrId : Nat) (instrs : List Instr)
    (memory : MemorySnapshot) :
    Except Panic (VerifierState × MemorySnapshot × Option Effect) :=
  match instrs with
  | [] => .ok (st, memory, none)
  | i :: rest => do
    match ← runInstr st bbIdx instrId i memory with
    | (st, memory, some eff) => .ok (st, memory, some eff)
    | (st, memory, none) => runInstrs st bbIdx (instrId + 1) rest memory

/-- `VerifierState::run_until_effect` (`src/interpret.rs`): fetch the
current block (Rust slice indexing panics when `p.bb` is out of range), run
the instructions from `p.instr` on, and on fall-through consult the
terminator; unsupported terminators are `unimplemented!`. -/
def VerifierState.run_until_effect (st : VerifierState) (f : Function) (p : Position)
    (memory : MemorySnapshot) :
    Except Panic (VerifierState × MemorySnapshot × Effect) :=
  match f.basic_blocks.get? p.bb with
  | none => .error .indexOutOfBounds
  | some bb => do
    match ← runInstrs st p.bb p.instr (bb.instrs.drop p.instr) memory with
    | (st, memory, some eff) => .ok (st, memory, eff)
    | (st, memory, none) =>
      match bb.term with
      | .ret return_operand => .ok (st, memory, .Return return_operand)
      | .condBr condition true_dest false_dest =>
        .ok (st, memory, .CondBr condition true_dest false_dest)
      | .other repr => .error (.unimplementedMsg repr)

/-- `pos_of_bb_name`: index of the block with the given name, at instruction
0; the source `unwrap`s the `position` lookup. -/
def pos_of_bb_name (name : Name) (left : Function) : Except Panic Position :=
  match findIdxA left.basic_blocks (fun x => x.name == name) with
  | some bb => .ok ⟨bb, 0⟩
  | none => .error .unwrapNone

/-- One element of the driver's work queue: the cloned verifier state and
the two current memories and positions. -/
structure PathState where
  this : VerifierState
  left_memory : MemorySnapshot
  right_memory : MemorySnapshot
  left_pos : Position
  right_pos : Position

/-- The observable outcome of running the driver loop: the returned value or
panic, the queue contents at the moment the loop exited, the final state of
the outer `self` (whose address map the `CondBr` arm mutates through the
`RefCell`), and instrumentation counters — number of queue pops, number of
`CondBr`/`CondBr` pops, number of `Call`/`Call` pops, and the goal-list
lengths seen at each `check_sat` entry. -/
structure DriverOut where
  result : Except Panic Bool
  leftover : List PathState
  selfFinal : VerifierState
  pops : Nat
  condBrPops : Nat
  callPops : Nat
  goalTrace : List Nat

/-- The work-queue loop of `compare_bb_start`, running on explicit fuel
(`none` = fuel exhausted).  It follows `src/main.rs` lines 107-215: pop a
path state, run both sides to their next effects, and dispatch on the pair;
a `Return`/`Return` pair returns `true` from the whole loop; a
`Call`/`Call` pair compares the calls on a clone and re-enqueues the
continuation; a `CondBr`/`CondBr` pair evaluates both conditions against
the outer `self` and enqueues all four assertion combinations; a
`Call`/`Return` mismatch queries the oracle and continues; any pair
involving a lone `CondBr` is `unreachable!()`. -/
def compareLoop (oracle : Oracle) : Nat → VerifierState → List PathState → Option DriverOut
  | 0, _, _ => none
  | _ + 1, selfSt, [] => some ⟨.ok true, [], selfSt, 0, 0, 0, []⟩
  | fuel + 1, selfSt, p :: rest =>
    match p.this.run_until_effect selfSt.left p.left_pos p.left_memory with
    | .error e => some ⟨.error e, rest, selfSt, 1, 0, 0, []⟩
    | .ok (this, left_memory, left_effect) =>
      match this.run_until_effect selfSt.right p.right_pos p.right_memory with
      | .error e => some ⟨.error e, rest, selfSt, 1, 0, 0, []⟩
      | .ok (this, right_memory, right_effect) =>
        match left_effect, right_effect with
        | .Return left_op, .Return right_op =>
          match this.compare_returns oracle left_op right_op left_memory right_memory with
          | (.error e, tr) => some ⟨.error e, rest, selfSt, 1, 0, 0, tr⟩
          | (.ok _, tr) => some ⟨.ok true, rest, selfSt, 1, 0, 0, tr⟩
        | .Call left_pos left_call, .Call right_pos right_call =>
          match this.compare_calls oracle left_call right_call left_memory right_memory with
          | (.error e, tr) => some ⟨.error e, rest, selfSt, 1, 0, 1, tr⟩
          | (.ok _, tr) =>
            match compareLoop oracle fuel selfSt
                (rest ++ [⟨this, left_memory, right_memory, left_pos, right_pos⟩]) with
            | none => none
            | some o => some { o with
                pops := o.pops + 1
                callPops := o.callPops + 1
                goalTrace := tr ++ o.goalTrace }
        | .CondBr lcond ltrue lfalse, .CondBr rcond rtrue rfalse =>
          match selfSt.operand_to_sexp lcond left_memory with
          | .error e => some ⟨.error e, rest, selfSt, 1, 1, 0, []⟩
          | .ok (selfSt, lcs) =>
            let left_cond_false := Sexp.s3 "=" lcs "#x00"
            let left_cond_true := Sexp.s2 "not" left_cond_false
            match selfSt.operand_to_sexp rcond right_memory with
            | .error e => some ⟨.error e, rest, selfSt, 1, 1, 0, []⟩
            | .ok (selfSt, rcs) =>
              let right_cond_false := Sexp.s3 "=" rcs "#x00"
              let right_cond_true := Sexp.s2 "not" right_cond_false
              match pos_of_bb_name ltrue selfSt.left with
              | .error e => some ⟨.error e, rest, selfSt, 1, 1, 0, []⟩
              | .ok left_true_pos =>
                match pos_of_bb_name lfalse selfSt.left with
                | .error e => some ⟨.error e, rest, selfSt, 1, 1, 0, []⟩
                | .ok left_false_pos =>
                  match pos_of_bb_name rtrue selfSt.right with
                  | .error e => some ⟨.error e, rest, selfSt, 1, 1, 0, []⟩
                  | .ok right_true_pos =>
                    match pos_of_bb_name rfalse selfSt.right with
                    | .error e => some ⟨.error e, rest, selfSt, 1, 1, 0, []⟩
                    | .ok right_false_pos =>
                      let this_true_true := (this.add_z3_line
                        (Sexp.s2 "assert" left_cond_true)).add_z3_line
                        (Sexp.s2 "assert" right_cond_true)
                      let this_true_false := (this.add_z3_line
                        (Sexp.s2 "assert" left_cond_true)).add_z3_line
                        (Sexp.s2 "assert" right_cond_false)
                      let this_false_true := (this.add_z3_line
                        (Sexp.s2 "assert" left_cond_false)).add_z3_line
                        (Sexp.s2 "assert" right_cond_true)
                      let this_false_false := (this.add_z3_line
                        (Sexp.s2 "assert" left_cond_false)).add_z3_line
                        (Sexp.s2 "assert" right_cond_false)
                      match compareLoop oracle fuel selfSt (rest ++
                          [⟨this_true_true, left_memory, right_memory,
                            left_true_pos, right_true_pos⟩,
                           ⟨this_true_false, left_memory, right_memory,
                            left_true_pos, right_false_pos⟩,
                           ⟨this_false_true, left_memory, right_memory,
                            left_false_pos, right_true_pos⟩,
                           ⟨this_false_false, left_memory, right_memory,
                            left_false_pos, right_false_pos⟩]) with
                      | none => none
                      | some o => some { o with
                          pops := o.pops + 1
                          condBrPops := o.condBrPops + 1 }
        | .Call _ _, .Return _ =>
          match this.check_sat oracle "Call missed in new" with
          | .error e => some ⟨.error e, rest, selfSt, 1, 0, 0, [this.goal.length]⟩
          | .ok _ =>
            match compareLoop oracle fuel selfSt rest with
            | none => none
            | some o => some { o with
                pops := o.pops + 1
                goalTrace := this.goal.length :: o.goalTrace }
        | .Return _, .Call _ _ =>
          match this.check_sat oracle "Call happened in new" with
          | .error e => some ⟨.error e, rest, selfSt, 1, 0, 0, [this.goal.length]⟩
          | .ok _ =>
            match compareLoop oracle fuel selfSt rest with
            | none => none
            | some o => some { o with
                pops := o.pops + 1
                goalTrace := this.goal.length :: o.goalTrace }
        | _, _ => some ⟨.error .unreachableMsg, rest, selfSt, 1, 0, 0, []⟩

/-- `VerifierState::compare_bb_start`: seed the queue with one entry — the
cloned state at position (0,0) of both functions (the `left_bb` and
`right_bb` parameters are ignored by the source, which hardcodes
`Position ( bb: 0, instr: 0 )`) — and run the loop. -/
def VerifierState.compare_bb_start (st : VerifierState) (oracle : Oracle) (fuel : Nat)
    (left_bb right_bb : Nat) (left_memory right_memory : MemorySnapshot) :
    Option DriverOut :=
  let _ := left_bb
  let _ := right_bb
  compareLoop oracle fuel st [⟨st, left_memory, right_memory, ⟨0, 0⟩, ⟨0, 0⟩⟩]

/-- The parameter-binding loop of `compare_functions`: for each formal
parameter of `left`, define `param_<name>` as the load of its page from the
initial memory and record it as interesting. -/
def bindParams (st : VerifierState) (params : List (Name × Typ))
    (memory : MemorySnapshot) : Except Panic VerifierState :=
  match params with
  | [] => .ok st
  | (pname, pty) :: rest => do
    let name := "param_" ++ pname
    let size ← size_of_ty pty
    let (st, addr) := st.address_of_name pname
    let value := load_from_addr addr size memory
    let st := st.add_z3_line (define_const name (bv_ty (size * 8)) value)
    let st := { st with intersting_consts := st.intersting_consts ++ [name] }
    bindParams st rest memory

/-- `VerifierState::compare_functions`: declare `memory_0`, bind the
parameters of `left`, and start the driver at block 0 of both functions. -/
def VerifierState.compare_functions (st : VerifierState) (oracle : Oracle)
    (fuel : Nat) : Except Panic (Option DriverOut) := do
  let (st, memory) := st.new_memory
  let st := st.add_z3_line (declare_const memory memory_ty)
  let st ← bindParams st st.left.parameters memory
  .ok (st.compare_bb_start oracle fuel 0 0 memory memory)

/-- Run the whole pipeline on a pair of functions and return the driver
outcome (`none` when the setup panicked or fuel ran out). -/
def runDriver (oracle : Oracle) (fuel : Nat) (left right : Function) :
    Option DriverOut :=
  match (VerifierState.new left right).compare_functions oracle fuel with
  | .ok r => r
  | .error _ => none

/-- The goal-length trace of a complete driver run started from
`compare_functions` (empty when the run panicked during setup or ran out of
fuel). -/
def runGoalTrace (oracle : Oracle) (fuel : Nat) (left right : Function) : List Nat :=
  match runDriver oracle fuel left right with
  | some o => o.goalTrace
  | none => []

/-- Semantic values of the SMT fragment the engine emits: bit-vectors
(width and value, the value kept below `2 ^ width`) and memory arrays
(64-bit address to 8-bit cell, modelled as a function on `Nat`). -/
inductive SmtVal
  | bv (w : Nat) (v : Nat)
  | arr (f : Nat → Nat)

/-- An SMT environment: named constants in scope. -/
abbrev Env := String → Option SmtVal

/-- Environment extension (the semantics of a `define-const` or a `let`
binding). -/
def updateEnv (e : Env) (k : String) (v : SmtVal) : Env :=
  fun k' => if k' = k then some v else e k'

/-- Parse a `#x...` hex bit-vector literal: its width (4 bits per digit) and
value. -/
def hexParse (s : String) : Option (Nat × Nat) :=
  match s.data with
  | '#' :: 'x' :: ds =>
    if ds.isEmpty then none
    else if ds.all isHexDigitC then some (4 * ds.length, baseVal 16 ds) else none
  | _ => none

/-- Parse a decimal numeral atom. -/
def decParse (s : String) : Option Nat :=
  if s.data.isEmpty then none
  else if s.data.all isDecDigitC then some (baseVal 10 s.data) else none

/-- Evaluator for the memory fragment of SMT-LIB emitted by the engine:
hex literals, named constants, `store`, `select`, variadic `concat`
(right-associated), `(_ extract hi lo)` and single-binding `let`.  Runs on
structural fuel so that it evaluates inside the kernel; every theorem
quantifies the fuel explicitly. -/
def eval : Nat → Env → Sexp → Option SmtVal
  | 0, _, _ => none
  | _ + 1, env, .Atom s =>
    (match hexParse s with
     | some (w, v) => some (.bv w v)
     | none => env s)
  | fuel + 1, env, .List l =>
    match l with
    | [.Atom "store", m, i, x] =>
      (match eval fuel env m, eval fuel env i, eval fuel env x with
       | some (.arr g), some (.bv 64 iv), some (.bv 8 xv) =>
         some (.arr fun a => if a = iv then xv else g a)
       | _, _, _ => none)
    | [.Atom "select", m, i] =>
      (match eval fuel env m, eval fuel env i with
       | some (.arr g), some (.bv 64 iv) => some (.bv 8 (g iv % 2 ^ 8))
       | _, _ => none)
    | [.Atom "concat", a, b] =>
      (match eval fuel env a, eval fuel env b with
       | some (.bv w1 v1), some (.bv w2 v2) => some (.bv (w1 + w2) (v1 * 2 ^ w2 + v2))
       | _, _ => none)
    | .Atom "concat" :: a :: b :: c :: rest2 =>
      (match eval fuel env a, eval fuel env (.List (.Atom "concat" :: b :: c :: rest2)) with
       | some (.bv w1 v1), some (.bv w2 v2) => some (.bv (w1 + w2) (v1 * 2 ^ w2 + v2))
       | _, _ => none)
    | [.List [.Atom "_", .Atom "extract", .Atom hi, .Atom lo], x] =>
      (match decParse hi, decParse lo, eval fuel env x with
       | some hiN, some loN, some (.bv w xv) =>
         if loN ≤ hiN ∧ hiN < w then
           some (.bv (hiN + 1 - loN) (xv / 2 ^ loN % 2 ^ (hiN + 1 - loN)))
         else none
       | _, _, _ => none)
    | [.Atom "let", .List [.List [.Atom v, ve]], body] =>
      (match eval fuel env ve with
       | some vv => eval fuel (updateEnv env v vv) body
       | none => none)
    | _ => none

/-- The `i`-th little-endian byte of `x`. -/
def byteOf (x i : Nat) : Nat := x / 2 ^ (8 * i) % 2 ^ 8

/-- The array resulting from storing the low `k` bytes of `x` little-endian
at `addr..addr+k-1` over the base array `mf`. -/
def updSeq (mf : Nat → Nat) (x addr : Nat) : Nat → Nat → Nat
  | 0 => mf
  | k + 1 => fun a => if a = addr + k then byteOf x k else updSeq mf x addr k a

/-- Boolean loop-freedom checker: under the block ranking `rank`, every
`condBr` destination of every block resolves (by `pos_of_bb_name`-style
lookup) to a block of strictly smaller rank.  A function admits such a rank
exactly when its branch graph is acyclic. -/
def blocksRanked (f : Function) (rank : Nat → Nat) : List BasicBlock → Nat → Bool
  | [], _ => true
  | bb :: rest, i =>
    (match bb.term with
     | .condBr _ t e =>
       (match findIdxA f.basic_blocks (fun x => x.name == t) with
        | some j => decide (rank j < rank i)
        | none => false) &&
       (match findIdxA f.basic_blocks (fun x => x.name == e) with
        | some j => decide (rank j < rank i)
        | none => false)
     | _ => true) && blocksRanked f rank rest (i + 1)

/-- Loop-freedom of a function, witnessed by a rank on block indices. -/
def loopFreeB (f : Function) (rank : Nat → Nat) : Bool :=
  blocksRanked f rank f.basic_blocks 0

/-- The number of instructions of block `i` of `f` (0 when out of range). -/
def blockLen (f : Function) (i : Nat) : Nat :=
  match f.basic_blocks.get? i with
  | some bb => bb.instrs.length
  | none => 0

/-- The largest instruction count over the blocks of `f`. -/
def maxInstrs (f : Function) : Nat :=
  (f.basic_blocks.map (fun bb => bb.instrs.length)).foldr max 0

/-- Decreasing measure of one side's position under a block ranking. -/
def sideMeasure (f : Function) (rank : Nat → Nat) (p : Position) : Nat :=
  rank p.bb * (maxInstrs f + 1) + (blockLen f p.bb - p.instr)

/-- Decreasing measure of a queued path state (sum of the two sides). -/
def pathMeasure (l r : Function) (rankL rankR : Nat → Nat) (p : PathState) : Nat :=
  sideMeasure l rankL p.left_pos + sideMeasure r rankR p.right_pos

/-- Decreasing measure of the whole work queue: the sum of `5 ^ pathMeasure`
over its elements (each pop removes one summand and adds at most four
strictly smaller ones). -/
def queueMeasure (l r : Function) (rankL rankR : Nat → Nat) (q : List PathState) : Nat :=
  (q.map (fun p => 5 ^ pathMeasure l r rankL rankR p)).sum

/-- The solver that always answers `unsat`. -/
def oracleTrue : Oracle := fun _ => true

/-- The solver that always answers `sat`. -/
def oracleFalse : Oracle := fun _ => false

/-- The 8-bit integer type used by the concrete examples. -/
def tyI8 : Typ := .integer 8

/-- Concrete `left`: branch on parameter `c`, both arms return 1. -/
def exBrLeft : Function :=
  { name := "left"
    parameters := [("c", tyI8)]
    basic_blocks :=
      [⟨"b0", [], .condBr (.localOperand "c" tyI8) "b1" "b2"⟩,
       ⟨"b1", [], .ret (some (.constInt 8 1))⟩,
       ⟨"b2", [], .ret (some (.constInt 8 1))⟩] }

/-- Concrete `right`: branch on parameter `c`, the false arm returns 2 —
inequivalent to `exBrLeft` when `c` is zero. -/
def exBrRight : Function :=
  { name := "right"
    parameters := [("c", tyI8)]
    basic_blocks :=
      [⟨"b0", [], .condBr (.localOperand "c" tyI8) "b1" "b2"⟩,
       ⟨"b1", [], .ret (some (.constInt 8 1))⟩,
       ⟨"b2", [], .ret (some (.constInt 8 2))⟩] }

/-- The block rank 3 - i, decreasing along the branch edges of `exBrLeft`
and `exBrRight`. -/
def exBrRank : Nat → Nat := fun i => 3 - i

/-- Driver run on the branching pair with an always-`unsat` solver. -/
def exBrOut : Option DriverOut := runDriver oracleTrue 10 exBrLeft exBrRight

/-- A default `DriverOut` for `Option.getD` projections. -/
def defaultOut : DriverOut :=
  ⟨.ok true, [], VerifierState.new ⟨"", [], []⟩ ⟨"", [], []⟩, 0, 0, 0, []⟩

/-- The completed branching-pair run (its existence is proved by `rfl`). -/
def exBrOutD : DriverOut := exBrOut.getD defaultOut

/-- A call to global `foo` of function type identified as "ft". -/
def fooCall : CallInst :=
  ⟨some (.constGlobalRef "foo" (.func "ft")), .func "ft", []⟩

/-- Concrete straight-line function: one external call, then `ret 1`. -/
def exCallFun (nm : String) : Function :=
  ⟨nm, [], [⟨"b0", [.call fooCall], .ret (some (.constInt 8 1))⟩]⟩

/-- Driver run on the call pair with an always-`unsat` solver. -/
def exCallOut : Option DriverOut :=
  runDriver oracleTrue 10 (exCallFun "left") (exCallFun "right")

/-- The completed call-pair run. -/
def exCallOutD : DriverOut := exCallOut.getD defaultOut

/-- Concrete function whose only instruction is an icmp with predicate `NE`. -/
def exNEFun : Function :=
  ⟨"left", [], [⟨"b0", [.icmp .NE (.constInt 8 0) (.constInt 8 0) "t"], .ret none⟩]⟩

/-- Well-formedness of the local-address map: the entry at index `i` holds
address `(i + 5) * ALLOCA_SIZE`, and no name occurs twice. -/
def AddrMapWF (m : List (Name × Nat)) : Prop :=
  (∀ i e, m.get? i = some e → e.2 = (i + 5) * ALLOCA_SIZE) ∧ (m.map Prod.fst).Nodup

/-- A concrete environment binding `memory_0` to the all-zero memory, used
by the round-trip witness. -/
def c4Env : Env :=
  fun s => if s = "memory_0" then some (.arr fun _ => 0) else none

/-- A verifier state with an empty script, used by concrete theorems. -/
def exState : VerifierState := VerifierState.new (exCallFun "left") (exCallFun "right")

/-- A verifier state whose next snapshot index is 1, used by the round-trip
witness. -/
def c4St : VerifierState :=
  { VerifierState.new (exCallFun "left") (exCallFun "right") with
    memory_generator_counter := 1 }

/-- A direct driver-loop run on the call pair, used by the C6 witness. -/
def c6wOut : DriverOut :=
  (compareLoop oracleTrue 10 exState
    [⟨exState, ⟨0⟩, ⟨0⟩, ⟨0, 0⟩, ⟨0, 0⟩⟩]).getD defaultOut

/-- A function whose entry block carries an unsupported terminator. -/
def exBadTermFun : Function :=
  ⟨"left", [], [⟨"b0", [], .other "Br (BrTerm)"⟩]⟩

/-- The fields of the verifier state that the symbolic stepper never
touches: the goals list and the two functions. -/
def SkelEq (a b : VerifierState) : Prop :=
  a.goal = b.goal ∧ a.left = b.left ∧ a.right = b.right


end TC


namespace TC

theorem strExt (a b : String) (h : a.data = b.data) : a = b := by
  cases a; cases b; cases h; rfl

theorem strData_append (a b : String) : (a ++ b).data = a.data ++ b.data := by
  cases a; cases b; rfl

theorem strAppend_assoc (a b c : String) : a ++ b ++ c = a ++ (b ++ c) := by
  apply strExt
  simp [strData_append]

theorem digitVal_digitChar : ∀ n, n < 16 → digitVal (digitChar n) = n := by decide

theorem isHexDigitC_digitChar : ∀ n, n < 16 → isHexDigitC (digitChar n) = true := by decide

theorem isDecDigitC_digitChar : ∀ n, n < 10 → isDecDigitC (digitChar n) = true := by decide

theorem baseVal_append_single (b : Nat) (l : List Char) (c : Char) :
    baseVal b (l ++ [c]) = baseVal b l * b + digitVal c := by
  simp [baseVal, List.foldl_append]

theorem toBaseAux_val (b : Nat) (hb : 2 ≤ b) (hb16 : b ≤ 16) :
    ∀ fuel n, n < fuel → baseVal b (toBaseAux b fuel n) = n := by
  intro fuel
  induction fuel with
  | zero => intro n h; omega
  | succ f ih =>
    intro n h
    by_cases hn : n < b
    · simp [toBaseAux, hn, baseVal, digitVal_digitChar n (by omega)]
    · have h1 : 0 < n := by omega
      have h2 : n / b < n := Nat.div_lt_self h1 (by omega)
      rw [toBaseAux, if_neg hn, baseVal_append_single, ih (n / b) (by omega),
        digitVal_digitChar (n % b) (by have := Nat.mod_lt n (show 0 < b by omega); omega)]
      exact Nat.div_add_mod' n b

theorem toBaseAux_length_le (b : Nat) (hb : 2 ≤ b) :
    ∀ fuel n k, n < fuel → n < b ^ k → 1 ≤ k → (toBaseAux b fuel n).length ≤ k := by
  intro fuel
  induction fuel with
  | zero => intro n k h; omega
  | succ f ih =>
    intro n k h hk h1
    by_cases hn : n < b
    · simp [toBaseAux, hn]; omega
    · rw [toBaseAux, if_neg hn]
      have hkk : 2 ≤ k := by
        rcases Nat.lt_or_ge k 2 with hlt | hge
        · have hk1 : k = 1 := by omega
          rw [hk1, pow_one] at hk
          omega
        · exact hge
      have h2 : n / b < b ^ (k - 1) := by
        apply Nat.div_lt_of_lt_mul
        calc n < b ^ k := hk
        _ = b ^ (k - 1) * b := by
              rw [← Nat.pow_succ]
              congr 1
              omega
        _ = b * b ^ (k - 1) := by ring
      have h3 : n / b < n := Nat.div_lt_self (by omega) (by omega)
      have := ih (n / b) (k - 1) (by omega) h2 (by omega)
      simp only [List.length_append, List.length_cons, List.length_nil]
      omega

theorem toBaseAux_ne_nil (b : Nat) : ∀ fuel n, 0 < fuel → toBaseAux b fuel n ≠ [] := by
  intro fuel n h
  cases fuel with
  | zero => omega
  | succ f =>
    rw [toBaseAux]
    by_cases hn : n < b <;> simp [hn]

theorem toBaseAux_digits (b : Nat) (hb : 0 < b) :
    ∀ fuel n c, c ∈ toBaseAux b fuel n → ∃ d, d < b ∧ c = digitChar d := by
  intro fuel
  induction fuel with
  | zero => intro n c h; simp [toBaseAux] at h
  | succ f ih =>
    intro n c h
    rw [toBaseAux] at h
    by_cases hn : n < b
    · rw [if_pos hn] at h
      simp at h
      exact ⟨n, hn, h⟩
    · rw [if_neg hn] at h
      rcases List.mem_append.1 h with h1 | h1
      · exact ih _ _ h1
      · simp at h1
        exact ⟨n % b, Nat.mod_lt n hb, h1⟩

theorem toHexChars_val (n : Nat) : baseVal 16 (toHexChars n) = n :=
  toBaseAux_val 16 (by omega) (by omega) (n + 1) n (Nat.lt_succ_self n)

theorem toHexChars_length_le (n k : Nat) (h : n < 16 ^ k) (hk : 1 ≤ k) :
    (toHexChars n).length ≤ k :=
  toBaseAux_length_le 16 (by omega) (n + 1) n k (Nat.lt_succ_self n) h hk

theorem toHexChars_hex (n : Nat) (c : Char) (h : c ∈ toHexChars n) : isHexDigitC c = true := by
  obtain ⟨d, hd, rfl⟩ := toBaseAux_digits 16 (by omega) (n + 1) n c h
  exact isHexDigitC_digitChar d hd

theorem baseVal_cons_zero (b : Nat) (l : List Char) : baseVal b ('0' :: l) = baseVal b l := by
  have h0 : digitVal '0' = 0 := by decide
  simp [baseVal, h0]

theorem baseVal_replicate_zero (b z : Nat) (l : List Char) :
    baseVal b (List.replicate z '0' ++ l) = baseVal b l := by
  induction z with
  | zero => rfl
  | succ k ih =>
    rw [List.replicate_succ, List.cons_append, baseVal_cons_zero]
    exact ih

theorem decChars_val (n : Nat) : baseVal 10 (decChars n) = n :=
  toBaseAux_val 10 (by omega) (by omega) (n + 1) n (Nat.lt_succ_self n)

theorem decChars_dec (n : Nat) (c : Char) (h : c ∈ decChars n) : isDecDigitC c = true := by
  obtain ⟨d, hd, hc⟩ := toBaseAux_digits 10 (by omega) (n + 1) n c h
  subst hc
  exact isDecDigitC_digitChar d hd

theorem decParse_decChars (n : Nat) : decParse (decRepr n) = some n := by
  have hne : decChars n ≠ [] := toBaseAux_ne_nil 10 (n + 1) n (Nat.succ_pos n)
  have hisEmpty : (decChars n).isEmpty = false := by
    cases h : decChars n with
    | nil => exact absurd h hne
    | cons a t => rfl
  have hall : (decChars n).all isDecDigitC = true :=
    List.all_eq_true.2 fun c hc => decChars_dec n c hc
  show (if (decChars n).isEmpty then none
    else if (decChars n).all isDecDigitC then some (baseVal 10 (decChars n)) else none) = some n
  rw [hisEmpty, hall]
  simp [decChars_val]

end TC

namespace TC

/-- C3 (amended): for byte-width `w ≥ 1` and any value `v < 16 ^ (2w)`, the
bit-vector hex literal is `#x` followed by exactly `2w` lowercase hex digits
denoting `v` zero-padded, hence `2w + 2` characters in total.  (For values
with more than `2w` hex digits the Rust `\x7b:0>width$\x7d` padding does not
truncate, so the output is longer — see the counterexample.) -/
theorem c3_bv_hex_format (v w : Nat) (hw : 1 ≤ w) (hv : v < 16 ^ (w * 2)) :
    (bvHexChars v w).length = w * 2 + 2 ∧
    (bvHexChars v w).take 2 = ['#', 'x'] ∧
    ((bvHexChars v w).drop 2).all isHexDigitC = true ∧
    baseVal 16 ((bvHexChars v w).drop 2) = v ∧
    bv_hex v w = Sexp.Atom (String.mk (bvHexChars v w)) := by
  have hlen : (toHexChars v).length ≤ w * 2 := toHexChars_length_le v (w * 2) hv (by omega)
  refine ⟨?_, rfl, ?_, ?_, rfl⟩
  · simp only [bvHexChars, List.length_cons, List.length_append, List.length_replicate]
    omega
  · show (List.replicate (w * 2 - (toHexChars v).length) '0' ++ toHexChars v).all
      isHexDigitC = true
    refine List.all_eq_true.2 fun c hc => ?_
    rcases List.mem_append.1 hc with h1 | h1
    · rw [List.eq_of_mem_replicate h1]; decide
    · exact toHexChars_hex v c h1
  · show baseVal 16 (List.replicate (w * 2 - (toHexChars v).length) '0' ++ toHexChars v) = v
    rw [baseVal_replicate_zero, toHexChars_val]

/-- C3 witness: the amended statement evaluated at `v = 171`, `w = 1`
(literal `#xab`). -/
theorem c3_witness :
    (bvHexChars 171 1).length = 1 * 2 + 2 ∧
    baseVal 16 ((bvHexChars 171 1).drop 2) = 171 :=
  ⟨(c3_bv_hex_format 171 1 (by decide) (by decide)).1,
   (c3_bv_hex_format 171 1 (by decide) (by decide)).2.2.2.1⟩

/-- C3 counterexample: at `v = 256`, `w = 1` the constructor yields
`#x100` — five characters, not `2w + 2 = 4`: the claim fails for values that
do not fit in `w` bytes. -/
theorem c3_counterexample :
    bv_hex 256 1 = Sexp.Atom "#x100" ∧ (bvHexChars 256 1).length = 5 ∧
      ¬(5 = 1 * 2 + 2) :=
  ⟨rfl, rfl, by decide⟩

theorem strPop_append_space (s : String) : strPop (s ++ " ") = s := by
  apply strExt
  show ((s ++ " ").data).dropLast = s.data
  rw [strData_append]
  show (s.data ++ [' ']).dropLast = s.data
  simp

theorem singleLineGo_spec (l : List Sexp) (h : l ≠ []) :
    ∀ r, singleLineGo r l = r ++ (joinSpace (l.map Sexp.to_single_line) ++ " ") := by
  induction l with
  | nil => contradiction
  | cons a rest ih =>
    intro r
    cases rest with
    | nil =>
      show singleLineGo (r ++ a.to_single_line ++ " ") [] =
        r ++ (joinSpace [a.to_single_line] ++ " ")
      rw [show singleLineGo (r ++ a.to_single_line ++ " ") [] =
        r ++ a.to_single_line ++ " " from by simp [singleLineGo]]
      simp [joinSpace, strAppend_assoc]
    | cons b t =>
      have hne : (b :: t) ≠ ([] : List Sexp) := by simp
      rw [show singleLineGo r (a :: b :: t) =
        singleLineGo (r ++ a.to_single_line ++ " ") (b :: t) from by simp [singleLineGo]]
      rw [ih hne]
      rw [show (a :: b :: t).map Sexp.to_single_line =
        a.to_single_line :: (b :: t).map Sexp.to_single_line from rfl]
      rw [show joinSpace (a.to_single_line :: (b :: t).map Sexp.to_single_line) =
        a.to_single_line ++ " " ++ joinSpace ((b :: t).map Sexp.to_single_line) from ?_]
      · simp [strAppend_assoc]
      · cases ht : (b :: t).map Sexp.to_single_line with
        | nil => simp at ht
        | cons x xs => rfl

/-- C10: `to_single_line` renders an atom as its own text; a list with at
least one element as `(`, the renderings separated by single spaces, then
`)`; and the empty list as the single character `)` (the `pop` removes the
opening parenthesis since no trailing space was appended). -/
theorem c10_to_single_line :
    (∀ x, Sexp.to_single_line (.Atom x) = x) ∧
    (∀ l, l ≠ [] → Sexp.to_single_line (.List l) =
      "(" ++ joinSpace (l.map Sexp.to_single_line) ++ ")") ∧
    Sexp.to_single_line (.List []) = ")" := by
  refine ⟨fun x => by simp [Sexp.to_single_line], fun l h => ?_, ?_⟩
  · rw [show Sexp.to_single_line (.List l) = strPop (singleLineGo "(" l) ++ ")" from by
      simp [Sexp.to_single_line]]
    rw [singleLineGo_spec l h "(", ← strAppend_assoc, strPop_append_space]
  · rw [show Sexp.to_single_line (.List []) = strPop (singleLineGo "(" []) ++ ")" from by
      simp [Sexp.to_single_line]]
    rw [show singleLineGo "(" [] = "(" from by simp [singleLineGo]]
    apply strExt
    rfl

/-- C10 witness: the nonempty-list conjunct evaluated on `(a b)`. -/
theorem c10_witness :
    Sexp.to_single_line (.List [.Atom "a", .Atom "b"]) =
      "(" ++ joinSpace ([Sexp.Atom "a", Sexp.Atom "b"].map Sexp.to_single_line) ++ ")" :=
  c10_to_single_line.2.1 [Sexp.Atom "a", Sexp.Atom "b"] (by simp)

end TC

namespace TC

theorem lookupA_mem (m : List (Name × Nat)) (n : Name) (a : Nat)
    (h : lookupA m n = some a) : ∃ i, m.get? i = some (n, a) := by
  induction m with
  | nil => simp [lookupA] at h
  | cons e rest ih =>
    rw [lookupA] at h
    by_cases he : e.1 = n
    · rw [if_pos he] at h
      exact ⟨0, by cases e; simp at he h; simp [he, h]⟩
    · rw [if_neg he] at h
      obtain ⟨i, hi⟩ := ih h
      exact ⟨i + 1, by simpa using hi⟩

theorem lookupA_none_not_mem (m : List (Name × Nat)) (n : Name)
    (h : lookupA m n = none) : n ∉ m.map Prod.fst := by
  induction m with
  | nil => simp
  | cons e rest ih =>
    rw [lookupA] at h
    by_cases he : e.1 = n
    · rw [if_pos he] at h; cases h
    · rw [if_neg he] at h
      simp only [List.map_cons, List.mem_cons]
      rintro (h1 | h1)
      · exact he h1.symm
      · exact ih h h1

theorem lookupA_append_not_found (m l : List (Name × Nat)) (n : Name)
    (h : lookupA m n = none) : lookupA (m ++ l) n = lookupA l n := by
  induction m with
  | nil => rfl
  | cons e rest ih =>
    rw [lookupA] at h
    by_cases he : e.1 = n
    · rw [if_pos he] at h; cases h
    · rw [if_neg he] at h
      rw [List.cons_append, lookupA, if_neg he]
      exact ih h

/-- C5: within one verifier state the address map is well formed and stays
so: the empty map is well formed; `address_of_name` preserves
well-formedness; a second call with the same name returns the same address
and leaves the state unchanged (lazy population, no rewriting); the address
returned is `(j + 5) * 2^32` for the insertion index `j` of the name; and
under well-formedness the byte ranges `[base, base + n)` with `n ≤ 8` of two
distinct names are disjoint. -/
theorem c5_address_of_name :
    AddrMapWF [] ∧
    (∀ (st : VerifierState) name, AddrMapWF st.local_addresses →
      AddrMapWF (st.address_of_name name).1.local_addresses) ∧
    (∀ (st : VerifierState) name,
      ((st.address_of_name name).1.address_of_name name) =
        ((st.address_of_name name).1, (st.address_of_name name).2)) ∧
    (∀ (st : VerifierState) name, AddrMapWF st.local_addresses → ∃ j,
      (st.address_of_name name).1.local_addresses.get? j =
        some (name, (st.address_of_name name).2) ∧
      (st.address_of_name name).2 = (j + 5) * ALLOCA_SIZE) ∧
    (∀ (m : List (Name × Nat)) n1 n2 a1 a2, AddrMapWF m → n1 ≠ n2 →
      lookupA m n1 = some a1 → lookupA m n2 = some a2 →
      ∀ i j, i < 8 → j < 8 → a1 + i ≠ a2 + j) := by
  have hS : (8 : Nat) ≤ ALLOCA_SIZE := by norm_num [ALLOCA_SIZE]
  refine ⟨⟨fun i e h => by simp at h, by simp⟩, ?_, ?_, ?_, ?_⟩
  · intro st name hwf
    unfold VerifierState.address_of_name
    cases hl : lookupA st.local_addresses name with
    | some x => exact hwf
    | none =>
      refine ⟨fun i e h => ?_, ?_⟩
      · by_cases hi : i < st.local_addresses.length
        · rw [List.get?_append hi] at h
          exact hwf.1 i e h
        · have hlen : i = st.local_addresses.length := by
            by_contra hne
            have : st.local_addresses.length + 1 ≤ i := by omega
            rw [List.get?_eq_none.2 (by simpa using this)] at h
            cases h
          subst hlen
          rw [List.get?_concat_length] at h
          cases h
          rfl
      · rw [List.map_append]
        simp only [List.map_cons, List.map_nil]
        rw [List.nodup_append]
        refine ⟨hwf.2, List.nodup_singleton name, ?_⟩
        intro x hx hx1
        simp at hx1
        subst hx1
        exact lookupA_none_not_mem _ _ hl hx
  · intro st name
    unfold VerifierState.address_of_name
    cases hl : lookupA st.local_addresses name with
    | some x => simp [hl]
    | none =>
      simp only []
      rw [lookupA_append_not_found _ _ _ hl]
      simp [lookupA]
  · intro st name hwf
    unfold VerifierState.address_of_name
    cases hl : lookupA st.local_addresses name with
    | some x =>
      obtain ⟨i, hi⟩ := lookupA_mem _ _ _ hl
      exact ⟨i, by simpa using hi, hwf.1 i _ hi⟩
    | none =>
      refine ⟨st.local_addresses.length, ?_, rfl⟩
      simpa using List.get?_concat_length st.local_addresses _
  · intro m n1 n2 a1 a2 hwf hne h1 h2 i j hi hj
    obtain ⟨i1, hi1⟩ := lookupA_mem _ _ _ h1
    obtain ⟨i2, hi2⟩ := lookupA_mem _ _ _ h2
    have ha1 : a1 = (i1 + 5) * ALLOCA_SIZE := hwf.1 i1 _ hi1
    have ha2 : a2 = (i2 + 5) * ALLOCA_SIZE := hwf.1 i2 _ hi2
    have hii : i1 ≠ i2 := by
      intro hEq
      subst hEq
      rw [hi1] at hi2
      cases hi2
      exact hne rfl
    subst ha1
    subst ha2
    rcases Nat.lt_or_ge i1 i2 with hlt | hge
    · have : (i1 + 5) * ALLOCA_SIZE + ALLOCA_SIZE ≤ (i2 + 5) * ALLOCA_SIZE := by
        have h6 : i1 + 6 ≤ i2 + 5 := by omega
        calc (i1 + 5) * ALLOCA_SIZE + ALLOCA_SIZE = (i1 + 6) * ALLOCA_SIZE := by ring
        _ ≤ (i2 + 5) * ALLOCA_SIZE := Nat.mul_le_mul_right _ h6
      omega
    · have hlt : i2 < i1 := by omega
      have : (i2 + 5) * ALLOCA_SIZE + ALLOCA_SIZE ≤ (i1 + 5) * ALLOCA_SIZE := by
        have h6 : i2 + 6 ≤ i1 + 5 := by omega
        calc (i2 + 5) * ALLOCA_SIZE + ALLOCA_SIZE = (i2 + 6) * ALLOCA_SIZE := by ring
        _ ≤ (i1 + 5) * ALLOCA_SIZE := Nat.mul_le_mul_right _ h6
      omega

/-- C5 witness: the conjuncts applied to a concrete state — the empty map is
well formed, and after inserting `x` and `y` the two pages are disjoint. -/
theorem c5_witness :
    AddrMapWF (VerifierState.new (exCallFun "left") (exCallFun "right")).local_addresses ∧
    (((VerifierState.new (exCallFun "left") (exCallFun "right")).address_of_name
        "x").1.address_of_name "x") =
      (((VerifierState.new (exCallFun "left") (exCallFun "right")).address_of_name "x").1,
        ((VerifierState.new (exCallFun "left") (exCallFun "right")).address_of_name "x").2) :=
  ⟨c5_address_of_name.1, c5_address_of_name.2.2.1 _ "x"⟩

/-- C8: when either return operand is absent (including the asymmetric
case), `compare_returns` returns at once: the state is unchanged — nothing
is appended to the script — and no `check_sat` query happens (empty trace). -/
theorem c8_compare_returns_absent (st : VerifierState) (oracle : Oracle)
    (left_op right_op : Option Operand) (lm rm : MemorySnapshot)
    (h : left_op = none ∨ right_op = none) :
    st.compare_returns oracle left_op right_op lm rm = (.ok st, []) := by
  rcases h with h | h
  · subst h; cases right_op <;> rfl
  · subst h; cases left_op <;> rfl

/-- C8 witness: the asymmetric case — left returns an operand, right does
not — closes the path with the state unchanged and no query. -/
theorem c8_witness :
    exState.compare_returns oracleTrue (some (.constInt 8 1)) none ⟨0⟩ ⟨0⟩ =
      (.ok exState, []) :=
  c8_compare_returns_absent exState oracleTrue (some (.constInt 8 1)) none ⟨0⟩ ⟨0⟩
    (Or.inr rfl)

/-- C2 (amended): with an empty goals list `check_sat` skips only the
negated-goal assertion; it still appends `(check-sat)` and `(get-model)` to
the script and still consults the solver, aborting when the answer is not
`unsat`. -/
theorem c2_check_sat_empty_goals (st : VerifierState) (oracle : Oracle) (msg : String)
    (h : st.goal = []) :
    st.check_sat oracle msg =
      (if oracle ((st.add_z3_line (Sexp.s1 "check-sat")).add_z3_line
          (Sexp.s1 "get-model")).z3_state
       then .ok ((st.add_z3_line (Sexp.s1 "check-sat")).add_z3_line (Sexp.s1 "get-model"))
       else .error (.counterExample msg)) := by
  simp only [VerifierState.check_sat, h]

/-- C2 witness: the amended behaviour evaluated on a state with empty goals
and the always-`unsat` solver. -/
theorem c2_witness :
    exState.check_sat oracleTrue "Call missed in new" =
      (if oracleTrue ((exState.add_z3_line (Sexp.s1 "check-sat")).add_z3_line
          (Sexp.s1 "get-model")).z3_state
       then .ok ((exState.add_z3_line (Sexp.s1 "check-sat")).add_z3_line
          (Sexp.s1 "get-model"))
       else .error (.counterExample "Call missed in new")) :=
  c2_check_sat_empty_goals exState oracleTrue "Call missed in new" rfl

/-- C2 counterexample: on a concrete state with an empty goals list,
`check_sat` does not "do nothing": with a `sat`-answering solver it aborts
(so the solver ran), and with an `unsat`-answering solver it returns a state
whose script has grown from 0 to 2 appended forms. -/
theorem c2_counterexample :
    exState.check_sat oracleFalse "Call missed in new" =
      .error (.counterExample "Call missed in new") ∧
    exState.check_sat oracleTrue "Call missed in new" =
      .ok ((exState.add_z3_line (Sexp.s1 "check-sat")).add_z3_line (Sexp.s1 "get-model")) ∧
    ((exState.add_z3_line (Sexp.s1 "check-sat")).add_z3_line
      (Sexp.s1 "get-model")).z3_state.length = 2 ∧
    exState.z3_state.length = 0 :=
  ⟨rfl, rfl, rfl, rfl⟩

end TC

namespace TC

/-- C7 (amended): every construct outside the supported fragment causes a
fatal abort, but only the instruction and terminator catch-alls name the
offending construct in their `unimplemented!` message; the `NE` icmp
predicate, unsupported operands and unsupported types abort through bare
`todo!()`, whose fixed message "not yet implemented" names nothing. -/
theorem c7_unsupported_aborts :
    (∀ (st : VerifierState) (f : Function) (p : Position) (memory : MemorySnapshot) bb s,
      f.basic_blocks.get? p.bb = some bb → bb.instrs.drop p.instr = [] →
      bb.term = .other s →
      st.run_until_effect f p memory = .error (.unimplementedMsg s) ∧
      (Panic.unimplementedMsg s).message = "not implemented: " ++ s) ∧
    (∀ (st : VerifierState) (f : Function) (p : Position) (memory : MemorySnapshot)
      bb s rest,
      f.basic_blocks.get? p.bb = some bb →
      bb.instrs.drop p.instr = .other s :: rest →
      st.run_until_effect f p memory = .error (.unimplementedMsg s)) ∧
    (∀ (st : VerifierState) (f : Function) (p : Position) (memory : MemorySnapshot)
      bb o0 o1 d rest,
      f.basic_blocks.get? p.bb = some bb →
      bb.instrs.drop p.instr = .icmp .NE o0 o1 d :: rest →
      st.run_until_effect f p memory = .error .todoMsg) ∧
    (∀ s, size_of_ty (.other s) = .error .todoMsg) ∧
    (∀ (st : VerifierState) s (m : MemorySnapshot),
      st.operand_to_sexp (.constOther s) m = .error .todoMsg) ∧
    Panic.message .todoMsg = "not yet implemented" := by
  refine ⟨?_, ?_, ?_, fun s => rfl, fun st s m => rfl, rfl⟩
  · intro st f p memory bb s hget hdrop hterm
    refine ⟨?_, rfl⟩
    rw [VerifierState.run_until_effect, hget]
    simp only [hdrop, runInstrs, hterm]
    rfl
  · intro st f p memory bb s rest hget hdrop
    rw [VerifierState.run_until_effect, hget]
    simp only [hdrop, runInstrs, runInstr]
    rfl
  · intro st f p memory bb o0 o1 d rest hget hdrop
    rw [VerifierState.run_until_effect, hget]
    simp only [hdrop, runInstrs, runInstr]
    rfl

/-- C7 witness: the catch-all arms on a concrete unsupported terminator. -/
theorem c7_witness :
    exState.run_until_effect exBadTermFun ⟨0, 0⟩ ⟨0⟩ =
      .error (.unimplementedMsg "Br (BrTerm)") ∧
    (Panic.unimplementedMsg "Br (BrTerm)").message = "not implemented: Br (BrTerm)" :=
  c7_unsupported_aborts.1 exState exBadTermFun ⟨0, 0⟩ ⟨0⟩ _ "Br (BrTerm)" rfl rfl rfl

/-- C7 counterexample: the abort raised for an icmp whose predicate is `NE`
is `todo!()`, whose message is the constant "not yet implemented" — it does
not name the offending construct (it does not even contain "NE"). -/
theorem c7_counterexample :
    (VerifierState.new exNEFun exNEFun).run_until_effect exNEFun ⟨0, 0⟩ ⟨0⟩ =
      .error .todoMsg ∧
    Panic.message .todoMsg = "not yet implemented" ∧
    ¬ List.IsInfix ['N', 'E'] (Panic.message .todoMsg).data :=
  ⟨rfl, rfl, by decide⟩

/-- C1: the driver does not drain its queue after a `Return`/`Return` pair —
it returns `true` from inside the loop, abandoning every path state still
queued.  On the branching pair the run ends after 2 pops with verdict
`true` while 3 path states are still queued, and re-running the abandoned
false/false path (whose returns differ) immediately raises the
return-equivalence query, which a `sat`-answering solver turns into a
counter-example abort: the dropped paths are not equivalent-by-construction. -/
theorem c1_early_return :
    (exBrOut.map fun o => (o.result, o.pops, o.leftover.length)) =
      some (.ok true, 2, 3) ∧
    ((compareLoop oracleFalse 10 exBrOutD.selfFinal (exBrOutD.leftover.drop 2)).map
      fun o => o.result) =
      some (.error (.counterExample "Return with different values")) :=
  ⟨rfl, rfl⟩

/-- C6 counterexample: on the loop-free pair that performs one matched
external call and then returns, the queue drains after 2 pops while
`4 ^ (number of matched CondBr pairs) = 4 ^ 0 = 1`: the claimed step bound
is violated. -/
theorem c6_counterexample :
    (exCallOut.map fun o => (o.result, o.pops, o.condBrPops, o.leftover.length)) =
      some (.ok true, 2, 0, 0) ∧
    ¬(2 ≤ 4 ^ 0) :=
  ⟨rfl, by decide⟩

end TC

namespace TC

theorem SkelEq.refl (a : VerifierState) : SkelEq a a := ⟨rfl, rfl, rfl⟩

theorem SkelEq.trans {a b c : VerifierState} (h1 : SkelEq a b) (h2 : SkelEq b c) :
    SkelEq a c :=
  ⟨h1.1.trans h2.1, h1.2.1.trans h2.2.1, h1.2.2.trans h2.2.2⟩

theorem address_of_name_skel (st : VerifierState) (n : Name) :
    SkelEq (st.address_of_name n).1 st := by
  unfold VerifierState.address_of_name
  split
  · exact SkelEq.refl st
  · exact ⟨rfl, rfl, rfl⟩

theorem add_z3_line_skel (st : VerifierState) (s : Sexp) :
    SkelEq (st.add_z3_line s) st := ⟨rfl, rfl, rfl⟩

theorem store_in_addr_skel (st : VerifierState) (addr size : Nat) (o : Sexp)
    (m : MemorySnapshot) : SkelEq (st.store_in_addr addr size o m).1 st :=
  ⟨rfl, rfl, rfl⟩

theorem operand_to_sexp_skel (st : VerifierState) (o : Operand) (m : MemorySnapshot)
    (st' : VerifierState) (s : Sexp) (h : st.operand_to_sexp o m = .ok (st', s)) :
    SkelEq st' st := by
  cases o with
  | localOperand name ty =>
    simp only [VerifierState.operand_to_sexp, bind, Except.bind] at h
    split at h
    · cases h
    · simp only [Except.ok.injEq, Prod.mk.injEq] at h
      rw [← h.1]
      exact address_of_name_skel st name
  | constInt bits value =>
    simp only [VerifierState.operand_to_sexp, Except.ok.injEq, Prod.mk.injEq] at h
    rw [← h.1]
    exact SkelEq.refl st
  | constGlobalRef name ty =>
    simp only [VerifierState.operand_to_sexp, bind, Except.bind] at h
    split at h
    · cases h
    · simp only [Except.ok.injEq, Prod.mk.injEq] at h
      rw [← h.1]
      exact address_of_name_skel st name
  | constOther r => cases h
  | metadata => cases h

theorem binop_instr_skel (st : VerifierState) (z3fn : String) (o0 o1 : Operand)
    (dest : Name) (m : MemorySnapshot) (st' : VerifierState) (m' : MemorySnapshot)
    (h : st.binop_instr z3fn o0 o1 dest m = .ok (st', m')) : SkelEq st' st := by
  simp only [VerifierState.binop_instr, bind, Except.bind] at h
  split at h
  · cases h
  next x hx =>
    obtain ⟨sta, s0⟩ := x
    split at h
    · cases h
    next y hy =>
      obtain ⟨stb, s1⟩ := y
      split at h
      · cases h
      next v hz =>
        simp only [Except.ok.injEq] at h
        have h1 := operand_to_sexp_skel _ _ _ _ _ hx
        have h2 := operand_to_sexp_skel _ _ _ _ _ hy
        have h3 := address_of_name_skel stb dest
        have h4 := store_in_addr_skel (stb.address_of_name dest).1
          (stb.address_of_name dest).2 v (Sexp.s3 z3fn s0 s1) m
        have h5 : st' = ((stb.address_of_name dest).1.store_in_addr
            (stb.address_of_name dest).2 v (Sexp.s3 z3fn s0 s1) m).1 := by
          rw [h]
        rw [h5]
        exact h4.trans (h3.trans (h2.trans h1))

theorem runInstr_skel (st : VerifierState) (bbIdx instrId : Nat) (i : Instr)
    (m : MemorySnapshot) (st' : VerifierState) (m' : MemorySnapshot)
    (eo : Option Effect) (h : runInstr st bbIdx instrId i m = .ok (st', m', eo)) :
    SkelEq st' st := by
  cases i with
  | add o0 o1 dest =>
    simp only [runInstr, bind, Except.bind] at h
    split at h
    · cases h
    next x hx =>
      obtain ⟨sta, ma⟩ := x
      simp only [Except.ok.injEq, Prod.mk.injEq] at h
      rw [← h.1]
      exact binop_instr_skel _ _ _ _ _ _ _ _ hx
  | and o0 o1 dest =>
    simp only [runInstr, bind, Except.bind] at h
    split at h
    · cases h
    next x hx =>
      obtain ⟨sta, ma⟩ := x
      simp only [Except.ok.injEq, Prod.mk.injEq] at h
      rw [← h.1]
      exact binop_instr_skel _ _ _ _ _ _ _ _ hx
  | sub o0 o1 dest =>
    simp only [runInstr, bind, Except.bind] at h
    split at h
    · cases h
    next x hx =>
      obtain ⟨sta, ma⟩ := x
      simp only [Except.ok.injEq, Prod.mk.injEq] at h
      rw [← h.1]
      exact binop_instr_skel _ _ _ _ _ _ _ _ hx
  | icmp pred o0 o1 dest =>
    simp only [runInstr] at h
    split at h
    · cases h
    next p hp =>
      simp only [bind, Except.bind] at h
      split at h
      · cases h
      next x hx =>
        obtain ⟨sta, s0⟩ := x
        split at h
        · cases h
        next y hy =>
          obtain ⟨stb, s1⟩ := y
          simp only [Except.ok.injEq, Prod.mk.injEq] at h
          have h1 := operand_to_sexp_skel _ _ _ _ _ hx
          have h2 := operand_to_sexp_skel _ _ _ _ _ hy
          have h3 := address_of_name_skel stb dest
          have h4 := store_in_addr_skel (stb.address_of_name dest).1
            (stb.address_of_name dest).2 1
            (if_then_else (Sexp.s3 (predStr p) s0 s1) "#x01" "#x00") m
          rw [← h.1]
          exact h4.trans (h3.trans (h2.trans h1))
  | select c tv fv dest =>
    simp only [runInstr, bind, Except.bind] at h
    split at h
    · cases h
    next x hx =>
      obtain ⟨sta, sc⟩ := x
      split at h
      · cases h
      next y hy =>
        obtain ⟨stb, stv⟩ := y
        split at h
        · cases h
        next z hz =>
          obtain ⟨stc, sfv⟩ := z
          split at h
          · cases h
          next v hw =>
            simp only [Except.ok.injEq, Prod.mk.injEq] at h
            have h1 := operand_to_sexp_skel _ _ _ _ _ hx
            have h2 := operand_to_sexp_skel _ _ _ _ _ hy
            have h3 := operand_to_sexp_skel _ _ _ _ _ hz
            have h4 := address_of_name_skel stc dest
            have h5 := store_in_addr_skel (stc.address_of_name dest).1
              (stc.address_of_name dest).2 v
              (if_then_else (Sexp.s3 "=" sc "#x00") sfv stv) m
            rw [← h.1]
            exact h5.trans (h4.trans (h3.trans (h2.trans h1)))
  | call c =>
    simp only [runInstr, Except.ok.injEq, Prod.mk.injEq] at h
    rw [← h.1]
    exact SkelEq.refl st
  | other r => cases h

theorem runInstrs_skel (bbIdx : Nat) (instrs : List Instr) :
    ∀ (st : VerifierState) instrId (m : MemorySnapshot) st' m' eo,
      runInstrs st bbIdx instrId instrs m = .ok (st', m', eo) → SkelEq st' st := by
  induction instrs with
  | nil =>
    intro st instrId m st' m' eo h
    simp only [runInstrs, Except.ok.injEq, Prod.mk.injEq] at h
    rw [← h.1]
    exact SkelEq.refl st
  | cons i rest ih =>
    intro st instrId m st' m' eo h
    simp only [runInstrs, bind, Except.bind] at h
    split at h
    · cases h
    next x hx =>
      obtain ⟨sta, ma, eff⟩ := x
      have h1 := runInstr_skel _ _ _ _ _ _ _ _ hx
      cases eff with
      | some e =>
        simp only [Except.ok.injEq, Prod.mk.injEq] at h
        rw [← h.1]
        exact h1
      | none =>
        exact (ih sta _ _ _ _ _ h).trans h1

theorem run_until_effect_skel (st : VerifierState) (f : Function) (p : Position)
    (m : MemorySnapshot) (st' : VerifierState) (m' : MemorySnapshot) (e : Effect)
    (h : st.run_until_effect f p m = .ok (st', m', e)) : SkelEq st' st := by
  simp only [VerifierState.run_until_effect] at h
  split at h
  · cases h
  next bb hbb =>
    simp only [bind, Except.bind] at h
    split at h
    · cases h
    next x hx =>
      obtain ⟨sta, ma, eff⟩ := x
      have h1 := runInstrs_skel _ _ _ _ _ _ _ _ hx
      cases eff with
      | some e2 =>
        simp only [Except.ok.injEq, Prod.mk.injEq] at h
        rw [← h.1]
        exact h1
      | none =>
        cases hterm : bb.term with
        | ret rop =>
          rw [hterm] at h
          simp only [Except.ok.injEq, Prod.mk.injEq] at h
          rw [← h.1]
          exact h1
        | condBr c t e2 =>
          rw [hterm] at h
          simp only [Except.ok.injEq, Prod.mk.injEq] at h
          rw [← h.1]
          exact h1
        | other r =>
          rw [hterm] at h
          simp only [] at h
          cases h

end TC

namespace TC

theorem compare_returns_trace (st : VerifierState) (oracle : Oracle)
    (lop rop : Option Operand) (lm rm : MemorySnapshot) (hg : st.goal = []) :
    (st.compare_returns oracle lop rop lm rm).2.all (fun n => decide (n ≤ 1)) = true := by
  cases lop with
  | none => cases rop <;> rfl
  | some l =>
    cases rop with
    | none => rfl
    | some r =>
      simp only [VerifierState.compare_returns]
      split
      · rfl
      next sta lv hx =>
        split
        · rfl
        next stb rv hy =>
          split
          · rfl
          next sz hz =>
            have hga : sta.goal = [] := (operand_to_sexp_skel _ _ _ _ _ hx).1.trans hg
            have hgb : stb.goal = [] := (operand_to_sexp_skel _ _ _ _ _ hy).1.trans hga
            simp [VerifierState.add_interesting_compare, VerifierState.add_z3_line, hgb]

theorem compare_calls_trace (st : VerifierState) (oracle : Oracle)
    (lc rc : CallInst) (lm rm : MemorySnapshot) (hg : st.goal = []) :
    (st.compare_calls oracle lc rc lm rm).2.all (fun n => decide (n ≤ 1)) = true := by
  simp only [VerifierState.compare_calls]
  split
  · simp [hg]
  · split
    · rfl
    next lf =>
      split
      · rfl
      next sta lv hx =>
        split
        · rfl
        next rf =>
          split
          · rfl
          next stb rv hy =>
            have hga : sta.goal = [] := (operand_to_sexp_skel _ _ _ _ _ hx).1.trans hg
            have hgb : stb.goal = [] := (operand_to_sexp_skel _ _ _ _ _ hy).1.trans hga
            simp [VerifierState.add_interesting_compare, VerifierState.add_z3_line, hgb]

end TC

namespace TC

theorem bindParams_goal (m : MemorySnapshot) :
    ∀ (params : List (Name × Typ)) (st st' : VerifierState),
      bindParams st params m = .ok st' → st'.goal = st.goal := by
  intro params
  induction params with
  | nil =>
    intro st st' h
    simp only [bindParams, Except.ok.injEq] at h
    rw [← h]
  | cons p rest ih =>
    intro st st' h
    obtain ⟨pname, pty⟩ := p
    simp only [bindParams, bind, Except.bind] at h
    split at h
    · cases h
    next sz hsz =>
      have := ih _ _ h
      rw [this]
      exact (address_of_name_skel st pname).1

theorem compareLoop_trace (oracle : Oracle) :
    ∀ fuel (selfSt : VerifierState) (q : List PathState),
      (∀ p ∈ q, p.this.goal = []) →
      ∀ o, compareLoop oracle fuel selfSt q = some o →
      o.goalTrace.all (fun n => decide (n ≤ 1)) = true := by
  intro fuel
  induction fuel with
  | zero => intro selfSt q hq o ho; cases ho
  | succ fuel ih =>
    intro selfSt q hq o ho
    cases q with
    | nil =>
      simp only [compareLoop] at ho
      cases ho
      rfl
    | cons p rest =>
      have hgp : p.this.goal = [] := hq p (List.mem_cons_self p rest)
      have hqrest : ∀ p' ∈ rest, p'.this.goal = [] :=
        fun p' hp' => hq p' (List.mem_cons_of_mem p hp')
      simp only [compareLoop] at ho
      split at ho
      · cases ho; rfl
      next this1 lm le hrun1 =>
        split at ho
        · cases ho; rfl
        next this2 rm re hrun2 =>
          have hg2 : this2.goal = [] :=
            ((run_until_effect_skel _ _ _ _ _ _ _ hrun2).1.trans
              ((run_until_effect_skel _ _ _ _ _ _ _ hrun1).1.trans hgp))
          split at ho
          -- Return / Return
          next lop rop =>
            split at ho
            next e tr hcr =>
              cases ho
              have := compare_returns_trace this2 oracle lop rop lm rm hg2
              rw [hcr] at this
              exact this
            next tr hcr =>
              cases ho
              have := compare_returns_trace this2 oracle lop rop lm rm hg2
              rw [hcr] at this
              exact this
          -- Call / Call
          next lrp lc rrp rc =>
            split at ho
            next e tr hcc =>
              cases ho
              have := compare_calls_trace this2 oracle lc rc lm rm hg2
              rw [hcc] at this
              exact this
            next tr hcc =>
              split at ho
              · cases ho
              next o' ho' =>
                cases ho
                have htr := compare_calls_trace this2 oracle lc rc lm rm hg2
                rw [hcc] at htr
                have hrest := ih selfSt
                  (rest ++ [⟨this2, lm, rm, lrp, rrp⟩])
                  (fun p' hp' => by
                    rcases List.mem_append.1 hp' with h1 | h1
                    · exact hqrest p' h1
                    · simp at h1
                      rw [h1]
                      exact hg2)
                  o' ho'
                simp only [DriverOut.goalTrace] at *
                rw [List.all_append]
                exact And.intro htr hrest |> fun ⟨a, b⟩ => by
                  rw [a, b]
                  rfl
          -- CondBr / CondBr
          next lcond lt lf rcond rt rf =>
            split at ho
            · cases ho; rfl
            next selfSt1 lcs hop1 =>
              split at ho
              · cases ho; rfl
              next selfSt2 rcs hop2 =>
                split at ho
                · cases ho; rfl
                next ltp hpos1 =>
                  split at ho
                  · cases ho; rfl
                  next lfp hpos2 =>
                    split at ho
                    · cases ho; rfl
                    next rtp hpos3 =>
                      split at ho
                      · cases ho; rfl
                      next rfp hpos4 =>
                        split at ho
                        · cases ho
                        next o' ho' =>
                          cases ho
                          have hrest := ih selfSt2
                            (rest ++ [_, _, _, _])
                            (fun p' hp' => by
                              rcases List.mem_append.1 hp' with h1 | h1
                              · exact hqrest p' h1
                              · simp only [List.mem_cons, List.mem_singleton,
                                  List.not_mem_nil, or_false] at h1
                                rcases h1 with h1 | h1 | h1 | h1 <;>
                                  (rw [h1]; exact hg2))
                            o' ho'
                          exact hrest
          -- Call / Return mismatch
          next lrp lc rop =>
            split at ho
            next e hcs =>
              cases ho
              simp [hg2]
            next stc hcs =>
              split at ho
              · cases ho
              next o' ho' =>
                cases ho
                have hrest := ih selfSt rest hqrest o' ho'
                simp only [List.all_cons, hrest, hg2]
                rfl
          -- Return / Call mismatch
          next lop rrp rc =>
            split at ho
            next e hcs =>
              cases ho
              simp [hg2]
            next stc hcs =>
              split at ho
              · cases ho
              next o' ho' =>
                cases ho
                have hrest := ih selfSt rest hqrest o' ho'
                simp only [List.all_cons, hrest, hg2]
                rfl
          -- unreachable pairs
          next hne1 hne2 hne3 =>
            cases ho
            rfl

/-- C9: in every run started from `compare_functions`, every `check_sat`
entry observes a goals list of length at most one — the two-or-more-goals
`todo!()` branch is unreachable: obligations are pushed onto states consumed
by the immediately following query, and queued states never accumulate a
goal. -/
theorem c9_goal_trace (oracle : Oracle) (fuel : Nat) (left right : Function) :
    (runGoalTrace oracle fuel left right).all (fun n => decide (n ≤ 1)) = true := by
  unfold runGoalTrace
  split
  next o hdrv =>
    unfold runDriver at hdrv
    split at hdrv
    next r hcf =>
      simp only [VerifierState.compare_functions, bind, Except.bind] at hcf
      split at hcf
      · cases hcf
      next st1 hbp =>
        simp only [Except.ok.injEq] at hcf
        have hg1 : st1.goal = [] := by
          rw [bindParams_goal _ _ _ _ hbp]
          rfl
        rw [hdrv] at hcf
        simp only [VerifierState.compare_bb_start] at hcf
        refine compareLoop_trace oracle fuel _ _ ?_ o hcf
        intro p' hp'
        simp only [List.mem_singleton] at hp'
        rw [hp']
        exact hg1
    next e hcf =>
      cases hdrv
  · rfl

end TC

namespace TC

theorem display_data (m : MemorySnapshot) :
    (MemorySnapshot.display m).data =
      'm' :: (['e', 'm', 'o', 'r', 'y', '_'] ++ (decRepr m.index).data) := by
  show ("memory_" ++ decRepr m.index).data = _
  rw [strData_append]
  rfl

theorem hexParse_display (m : MemorySnapshot) :
    hexParse (MemorySnapshot.display m) = none := by
  unfold hexParse
  rw [display_data]
  rfl

theorem display_ne_val (m : MemorySnapshot) : MemorySnapshot.display m ≠ "val" := by
  intro h
  have h2 := congrArg String.data h
  rw [display_data] at h2
  simp at h2

theorem eval_atom_lookup (f : Nat) (hf : 1 ≤ f) (env : Env) (m : MemorySnapshot) :
    eval f env (Sexp.Atom (MemorySnapshot.display m)) = env (MemorySnapshot.display m) := by
  cases f with
  | zero => omega
  | succ f => simp [eval, hexParse_display]

theorem eval_atom_val (f : Nat) (hf : 1 ≤ f) (env : Env) (v : SmtVal) :
    eval f (updateEnv env "val" v) (Sexp.Atom "val") = some v := by
  cases f with
  | zero => omega
  | succ f =>
    show (match hexParse "val" with
      | some (w, v2) => some (SmtVal.bv w v2)
      | none => updateEnv env "val" v "val") = some v
    rw [show hexParse "val" = none from rfl]
    simp [updateEnv]

theorem hexParse_bvHex (a : Nat) (ha : a < 2 ^ 64) :
    hexParse (String.mk (bvHexChars a 8)) = some (64, a) := by
  have ha16 : a < 16 ^ 16 := by
    have : (16 : Nat) ^ 16 = 2 ^ 64 := by norm_num
    omega
  have hlen : (toHexChars a).length ≤ 16 :=
    toHexChars_length_le a 16 ha16 (by omega)
  have hne : toHexChars a ≠ [] := toBaseAux_ne_nil 16 (a + 1) a (Nat.succ_pos a)
  show (match ('#' :: 'x' :: (List.replicate (8 * 2 - (toHexChars a).length) '0' ++
      toHexChars a) : List Char) with
    | '#' :: 'x' :: ds =>
      if ds.isEmpty then none
      else if ds.all isHexDigitC then some (4 * ds.length, baseVal 16 ds) else none
    | _ => none) = some (64, a)
  have hisEmpty : (List.replicate (8 * 2 - (toHexChars a).length) '0' ++
      toHexChars a).isEmpty = false := by
    rcases hhd : toHexChars a with _ | ⟨c, t⟩
    · exact absurd hhd hne
    · rw [List.isEmpty_eq_false_iff_exists_mem]
      exact ⟨c, List.mem_append.2 (Or.inr (by simp [hhd]))⟩
  have hall : (List.replicate (8 * 2 - (toHexChars a).length) '0' ++
      toHexChars a).all isHexDigitC = true := by
    refine List.all_eq_true.2 fun c hc => ?_
    rcases List.mem_append.1 hc with h1 | h1
    · rw [List.eq_of_mem_replicate h1]; decide
    · exact toHexChars_hex a c h1
  rw [show (match ('#' :: 'x' :: (List.replicate (8 * 2 - (toHexChars a).length) '0' ++
      toHexChars a) : List Char) with
    | '#' :: 'x' :: ds =>
      if ds.isEmpty then none
      else if ds.all isHexDigitC then some (4 * ds.length, baseVal 16 ds) else none
    | _ => none) =
      (if (List.replicate (8 * 2 - (toHexChars a).length) '0' ++
          toHexChars a).isEmpty then none
       else if (List.replicate (8 * 2 - (toHexChars a).length) '0' ++
          toHexChars a).all isHexDigitC then
          some (4 * (List.replicate (8 * 2 - (toHexChars a).length) '0' ++
            toHexChars a).length, baseVal 16 (List.replicate (8 * 2 -
            (toHexChars a).length) '0' ++ toHexChars a))
       else none) from rfl]
  rw [hisEmpty, hall]
  simp only [Bool.false_eq_true, if_false, if_true]
  rw [baseVal_replicate_zero, toHexChars_val]
  have hlen2 : (List.replicate (8 * 2 - (toHexChars a).length) '0' ++
      toHexChars a).length = 16 := by
    rw [List.length_append, List.length_replicate]
    omega
  rw [hlen2]

theorem eval_atom_bvHex (f : Nat) (hf : 1 ≤ f) (env : Env) (a : Nat) (ha : a < 2 ^ 64) :
    eval f env (bv_hex a 8) = some (.bv 64 a) := by
  cases f with
  | zero => omega
  | succ f =>
    show (match hexParse (String.mk (bvHexChars a 8)) with
      | some (w, v) => some (SmtVal.bv w v)
      | none => env (String.mk (bvHexChars a 8))) = some (.bv 64 a)
    rw [hexParse_bvHex a ha]

end TC

namespace TC

theorem byteOf_lt (x i : Nat) : byteOf x i < 2 ^ 8 :=
  Nat.mod_lt _ (by norm_num)

theorem byte_sum (x k : Nat) :
    byteOf x k * 2 ^ (8 * k) + x % 2 ^ (8 * k) = x % 2 ^ (8 * (k + 1)) := by
  have h : 8 * (k + 1) = 8 * k + 8 := by ring
  rw [h, pow_add, Nat.mod_mul, byteOf]
  ring

theorem updSeq_get (mf : Nat → Nat) (x addr : Nat) :
    ∀ k i, i < k → updSeq mf x addr k (addr + i) = byteOf x i := by
  intro k
  induction k with
  | zero => intro i h; omega
  | succ k ih =>
    intro i h
    by_cases hik : i = k
    · subst hik
      simp [updSeq]
    · have : addr + i ≠ addr + k := by omega
      simp only [updSeq, if_neg this]
      exact ih i (by omega)

theorem eval_extractByte (f : Nat) (hf : 2 ≤ f) (env : Env) (W x k : Nat)
    (hW : 8 * k + 7 < W) :
    eval f (updateEnv env "val" (.bv W x)) (extractByte k) = some (.bv 8 (byteOf x k)) := by
  cases f with
  | zero => omega
  | succ f =>
    have hf1 : 1 ≤ f := by omega
    show (match decParse (decRepr (k * 8 + 7)), decParse (decRepr (k * 8)),
        eval f (updateEnv env "val" (SmtVal.bv W x)) (Sexp.Atom "val") with
      | some hiN, some loN, some (SmtVal.bv w xv) =>
        if loN ≤ hiN ∧ hiN < w then
          some (SmtVal.bv (hiN + 1 - loN) (xv / 2 ^ loN % 2 ^ (hiN + 1 - loN)))
        else none
      | _, _, _ => none) = some (SmtVal.bv 8 (byteOf x k))
    rw [decParse_decChars, decParse_decChars, eval_atom_val f hf1]
    have hcond : k * 8 ≤ k * 8 + 7 ∧ k * 8 + 7 < W := by
      constructor
      · omega
      · omega
    show (if k * 8 ≤ k * 8 + 7 ∧ k * 8 + 7 < W then
        some (SmtVal.bv (k * 8 + 7 + 1 - k * 8)
          (x / 2 ^ (k * 8) % 2 ^ (k * 8 + 7 + 1 - k * 8)))
      else none) = some (SmtVal.bv 8 (byteOf x k))
    rw [if_pos hcond]
    have h8 : k * 8 + 7 + 1 - k * 8 = 8 := by omega
    rw [h8]
    have hb : x / 2 ^ (k * 8) % 2 ^ 8 = byteOf x k := by
      rw [byteOf, Nat.mul_comm 8 k]
    rw [hb]

theorem eval_storeChain (env : Env) (mem : MemorySnapshot) (mf : Nat → Nat)
    (x addr n : Nat)
    (hm : env mem.display = some (.arr mf)) :
    ∀ k, k ≤ n → addr + n ≤ 2 ^ 64 →
    ∀ f, k + 2 ≤ f →
      eval f (updateEnv env "val" (.bv (8 * n) x)) (storeChain addr mem.toSexp k) =
        some (.arr (updSeq mf x addr k)) := by
  intro k
  induction k with
  | zero =>
    intro hk ha f hf
    show eval f (updateEnv env "val" (.bv (8 * n) x))
      (Sexp.Atom mem.display) = some (.arr (updSeq mf x addr 0))
    rw [eval_atom_lookup f (by omega)]
    show (if mem.display = "val" then some (.bv (8 * n) x) else env mem.display) = _
    rw [if_neg (display_ne_val mem), hm]
    rfl
  | succ k ih =>
    intro hk ha f hf
    cases f with
    | zero => omega
    | succ f =>
      have hfk : k + 2 ≤ f := by omega
      have hak : addr + k < 2 ^ 64 := by omega
      show (match eval f (updateEnv env "val" (SmtVal.bv (8 * n) x))
            (storeChain addr mem.toSexp k),
          eval f (updateEnv env "val" (SmtVal.bv (8 * n) x)) (bv_hex (addr + k) 8),
          eval f (updateEnv env "val" (SmtVal.bv (8 * n) x)) (extractByte k) with
        | some (SmtVal.arr g), some (SmtVal.bv 64 iv), some (SmtVal.bv 8 xv) =>
          some (SmtVal.arr fun a => if a = iv then xv else g a)
        | _, _, _ => none) = some (SmtVal.arr (updSeq mf x addr (k + 1)))
      rw [ih (by omega) ha f hfk,
        eval_atom_bvHex f (by omega) _ (addr + k) hak,
        eval_extractByte f (by omega) env (8 * n) x k (by omega)]
      rfl

theorem eval_storeLet (env : Env) (mem : MemorySnapshot) (mf : Nat → Nat)
    (o : Sexp) (x addr n fo : Nat)
    (hm : env mem.display = some (.arr mf))
    (ho : ∀ f, fo ≤ f → eval f env o = some (.bv (8 * n) x))
    (ha : addr + n ≤ 2 ^ 64) :
    ∀ f, fo + n + 3 ≤ f →
      eval f env (storeLet addr n o mem) = some (.arr (updSeq mf x addr n)) := by
  intro f hf
  cases f with
  | zero => omega
  | succ f =>
    show (match eval f env o with
      | some vv => eval f (updateEnv env "val" vv) (storeChain addr mem.toSexp n)
      | none => none) = some (.arr (updSeq mf x addr n))
    rw [ho f (by omega)]
    exact eval_storeChain env mem mf x addr n hm n (le_refl n) ha f (by omega)

end TC

namespace TC

theorem eval_select_byte (envL : Env) (nm : MemorySnapshot) (g : Nat → Nat) (a : Nat)
    (ha : a < 2 ^ 64) (hg : envL nm.display = some (.arr g)) :
    ∀ f, 2 ≤ f → eval f envL (Sexp.s3 "select" nm (bv_hex a 8)) =
      some (.bv 8 (g a % 2 ^ 8)) := by
  intro f hf
  cases f with
  | zero => omega
  | succ f =>
    show (match eval f envL (Sexp.Atom nm.display), eval f envL (bv_hex a 8) with
      | some (SmtVal.arr g), some (SmtVal.bv 64 iv) => some (SmtVal.bv 8 (g iv % 2 ^ 8))
      | _, _ => none) = some (SmtVal.bv 8 (g a % 2 ^ 8))
    rw [eval_atom_lookup f (by omega), hg, eval_atom_bvHex f (by omega) _ a ha]

theorem updSeq_byte_mod (mf : Nat → Nat) (x addr n i : Nat) (hi : i < n) :
    updSeq mf x addr n (addr + i) % 2 ^ 8 = byteOf x i := by
  rw [updSeq_get mf x addr n i hi]
  exact Nat.mod_eq_of_lt (byteOf_lt x i)

theorem eval_concat_selects (envL : Env) (nm : MemorySnapshot) (mf : Nat → Nat)
    (x addr n : Nat) (ha : addr + n ≤ 2 ^ 64)
    (hg : envL nm.display = some (.arr (updSeq mf x addr n))) :
    ∀ j, j + 2 ≤ n → ∀ f, j + 3 ≤ f →
      eval f envL (Sexp.List (ToSexp.to_sexp "concat" ::
        (List.range (j + 2)).reverse.map
          (fun i => Sexp.s3 "select" nm (bv_hex (addr + i) 8)))) =
        some (.bv (8 * (j + 2)) (x % 2 ^ (8 * (j + 2)))) := by
  intro j
  induction j with
  | zero =>
    intro hjn f hf
    cases f with
    | zero => omega
    | succ f =>
      rw [show (List.range (0 + 2)).reverse.map
          (fun i => Sexp.s3 "select" nm (bv_hex (addr + i) 8)) =
        [Sexp.s3 "select" nm (bv_hex (addr + 1) 8),
         Sexp.s3 "select" nm (bv_hex (addr + 0) 8)] from rfl]
      show (match eval f envL (Sexp.s3 "select" nm (bv_hex (addr + 1) 8)),
          eval f envL (Sexp.s3 "select" nm (bv_hex (addr + 0) 8)) with
        | some (SmtVal.bv w1 v1), some (SmtVal.bv w2 v2) =>
          some (SmtVal.bv (w1 + w2) (v1 * 2 ^ w2 + v2))
        | _, _ => none) = some (SmtVal.bv (8 * (0 + 2)) (x % 2 ^ (8 * (0 + 2))))
      rw [eval_select_byte envL nm _ (addr + 1) (by omega) hg f (by omega),
        eval_select_byte envL nm _ (addr + 0) (by omega) hg f (by omega),
        updSeq_byte_mod mf x addr n 1 (by omega),
        updSeq_byte_mod mf x addr n 0 (by omega)]
      show some (SmtVal.bv (8 + 8) (byteOf x 1 * 2 ^ 8 + byteOf x 0)) =
        some (SmtVal.bv (8 * (0 + 2)) (x % 2 ^ (8 * (0 + 2))))
      have h0 : byteOf x 0 = x % 256 := by
        norm_num [byteOf]
      have h1 := byte_sum x 1
      norm_num at h1 ⊢
      rw [h0, h1]
  | succ j ih =>
    intro hjn f hf
    cases f with
    | zero => omega
    | succ f =>
      have hsplit : (List.range (j + 1 + 2)).reverse.map
          (fun i => Sexp.s3 "select" nm (bv_hex (addr + i) 8)) =
          Sexp.s3 "select" nm (bv_hex (addr + (j + 2)) 8) ::
          Sexp.s3 "select" nm (bv_hex (addr + (j + 1)) 8) ::
          Sexp.s3 "select" nm (bv_hex (addr + j) 8) ::
          (List.range j).reverse.map
            (fun i => Sexp.s3 "select" nm (bv_hex (addr + i) 8)) := by
        rw [List.range_succ, List.reverse_append,
          List.range_succ, List.reverse_append,
          List.range_succ, List.reverse_append]
        rfl
      rw [hsplit]
      have hinner : (Sexp.List (ToSexp.to_sexp "concat" ::
          Sexp.s3 "select" nm (bv_hex (addr + (j + 1)) 8) ::
          Sexp.s3 "select" nm (bv_hex (addr + j) 8) ::
          (List.range j).reverse.map
            (fun i => Sexp.s3 "select" nm (bv_hex (addr + i) 8)))) =
          (Sexp.List (ToSexp.to_sexp "concat" ::
          (List.range (j + 2)).reverse.map
            (fun i => Sexp.s3 "select" nm (bv_hex (addr + i) 8)))) := by
        rw [List.range_succ, List.reverse_append, List.range_succ, List.reverse_append]
        rfl
      cases hrest : (List.range j).reverse.map
          (fun i => Sexp.s3 "select" nm (bv_hex (addr + i) 8)) with
      | nil =>
        have hj0 : j = 0 := by
          have := congrArg List.length hrest
          simpa using this
        subst hj0
        show (match eval f envL (Sexp.s3 "select" nm (bv_hex (addr + 2) 8)),
            eval f envL (Sexp.List (ToSexp.to_sexp "concat" ::
              [Sexp.s3 "select" nm (bv_hex (addr + 1) 8),
               Sexp.s3 "select" nm (bv_hex (addr + 0) 8)])) with
          | some (SmtVal.bv w1 v1), some (SmtVal.bv w2 v2) =>
            some (SmtVal.bv (w1 + w2) (v1 * 2 ^ w2 + v2))
          | _, _ => none) = some (SmtVal.bv (8 * (0 + 1 + 2)) (x % 2 ^ (8 * (0 + 1 + 2))))
        rw [show (Sexp.List (ToSexp.to_sexp "concat" ::
              [Sexp.s3 "select" nm (bv_hex (addr + 1) 8),
               Sexp.s3 "select" nm (bv_hex (addr + 0) 8)])) =
            (Sexp.List (ToSexp.to_sexp "concat" ::
              (List.range (0 + 2)).reverse.map
                (fun i => Sexp.s3 "select" nm (bv_hex (addr + i) 8)))) from rfl]
        rw [ih (by omega) f (by omega),
          eval_select_byte envL nm _ (addr + 2) (by omega) hg f (by omega),
          updSeq_byte_mod mf x addr n 2 (by omega)]
        show some (SmtVal.bv (8 + 8 * 2) (byteOf x 2 * 2 ^ (8 * 2) + x % 2 ^ (8 * 2))) =
          some (SmtVal.bv (8 * (0 + 1 + 2)) (x % 2 ^ (8 * (0 + 1 + 2))))
        have hsum := byte_sum x 2
        norm_num at hsum ⊢
        rw [hsum]
      | cons c rest2 =>
        show (match eval f envL (Sexp.s3 "select" nm (bv_hex (addr + (j + 2)) 8)),
            eval f envL (Sexp.List (ToSexp.to_sexp "concat" ::
              Sexp.s3 "select" nm (bv_hex (addr + (j + 1)) 8) ::
              Sexp.s3 "select" nm (bv_hex (addr + j) 8) :: c :: rest2)) with
          | some (SmtVal.bv w1 v1), some (SmtVal.bv w2 v2) =>
            some (SmtVal.bv (w1 + w2) (v1 * 2 ^ w2 + v2))
          | _, _ => none) =
          some (SmtVal.bv (8 * (j + 1 + 2)) (x % 2 ^ (8 * (j + 1 + 2))))
        rw [← hrest, hinner, ih (by omega) f (by omega),
          eval_select_byte envL nm _ (addr + (j + 2)) (by omega) hg f (by omega),
          updSeq_byte_mod mf x addr n (j + 2) (by omega)]
        show some (SmtVal.bv (8 + 8 * (j + 2)) (byteOf x (j + 2) * 2 ^ (8 * (j + 2)) +
            x % 2 ^ (8 * (j + 2)))) =
          some (SmtVal.bv (8 * (j + 1 + 2)) (x % 2 ^ (8 * (j + 1 + 2))))
        have hw : 8 + 8 * (j + 2) = 8 * (j + 1 + 2) := by ring
        have hsum := byte_sum x (j + 2)
        have he : 8 * (j + 2 + 1) = 8 * (j + 1 + 2) := by ring
        rw [hw, hsum, he]

end TC

namespace TC

theorem eval_load (envL : Env) (nm : MemorySnapshot) (mf : Nat → Nat) (x addr n : Nat)
    (hn : 1 ≤ n) (ha : addr + n ≤ 2 ^ 64)
    (hg : envL nm.display = some (.arr (updSeq mf x addr n))) :
    ∀ f, n + 2 ≤ f →
      eval f envL (load_from_addr addr n nm) = some (.bv (8 * n) (x % 2 ^ (8 * n))) := by
  intro f hf
  by_cases h1 : n = 1
  · subst h1
    rw [show load_from_addr addr 1 nm = Sexp.s3 "select" nm (bv_hex addr 8) from by
      simp [load_from_addr]]
    rw [eval_select_byte envL nm _ addr (by omega) hg f (by omega)]
    have hb := updSeq_byte_mod mf x addr 1 0 (by omega)
    rw [show addr + 0 = addr from rfl] at hb
    rw [hb]
    have h0 : byteOf x 0 = x % 2 ^ (8 * 1) := by norm_num [byteOf]
    rw [h0]
  · obtain ⟨j, rfl⟩ : ∃ j, n = j + 2 := ⟨n - 2, by omega⟩
    rw [show load_from_addr addr (j + 2) nm = Sexp.List (ToSexp.to_sexp "concat" ::
      (List.range (j + 2)).reverse.map
        (fun i => Sexp.s3 "select" nm (bv_hex (addr + i) 8))) from by
      simp [load_from_addr]]
    exact eval_concat_selects envL nm mf x addr (j + 2) ha hg j (le_refl _) f (by omega)

/-- C4: little-endian round trip.  For a value expression `o` of byte-width
`n ≥ 1` (evaluating to the bit-vector `x < 2^(8n)`) and an address `a` with
`a + n` within the 64-bit address space, `store_in_addr` allocates the next
snapshot and emits exactly one `define-const` binding it to the nested
little-endian store expression; evaluating that expression and then
evaluating `load_from_addr` for `n` bytes at `a` against the new snapshot
yields exactly the bit-vector `x` — the emitted load is SMT-equivalent to
the stored value. -/
theorem c4_store_load_round_trip
    (st : VerifierState) (addr n : Nat) (o : Sexp) (mem : MemorySnapshot)
    (env : Env) (x : Nat) (mf : Nat → Nat) (fo : Nat)
    (hn : 1 ≤ n) (ha : addr + n ≤ 2 ^ 64) (hx : x < 2 ^ (8 * n))
    (ho : ∀ f, fo ≤ f → eval f env o = some (.bv (8 * n) x))
    (hm : env mem.display = some (.arr mf)) :
    (st.store_in_addr addr n o mem).2 = ⟨st.memory_generator_counter⟩ ∧
    (st.store_in_addr addr n o mem).1.z3_state = st.z3_state ++
      [define_const (MemorySnapshot.mk st.memory_generator_counter) memory_ty
        (storeLet addr n o mem)] ∧
    ∃ g, (∀ f, fo + n + 3 ≤ f →
        eval f env (storeLet addr n o mem) = some (.arr g)) ∧
      (∀ (env2 : Env) f, n + 2 ≤ f →
        eval f (updateEnv env2
            (MemorySnapshot.display ⟨st.memory_generator_counter⟩) (.arr g))
          (load_from_addr addr n ⟨st.memory_generator_counter⟩) =
          some (.bv (8 * n) x)) := by
  refine ⟨rfl, rfl, ⟨updSeq mf x addr n, ?_, ?_⟩⟩
  · exact fun f hf => eval_storeLet env mem mf o x addr n fo hm ho ha f hf
  · intro env2 f hf
    have hg : (updateEnv env2 (MemorySnapshot.display ⟨st.memory_generator_counter⟩)
        (.arr (updSeq mf x addr n)))
          (MemorySnapshot.display ⟨st.memory_generator_counter⟩) =
        some (.arr (updSeq mf x addr n)) := by simp [updateEnv]
    rw [eval_load _ _ mf x addr n hn ha hg f hf, Nat.mod_eq_of_lt hx]

/-- C4 witness: the round trip evaluated at `n = 2`, `addr = 3`, value
`#x1234`, over the all-zero initial memory. -/
theorem c4_witness :
    ∃ g, (∀ f, 1 + 2 + 3 ≤ f →
        eval f c4Env (storeLet 3 2 (bv_hex 4660 2) ⟨0⟩) = some (.arr g)) ∧
      (∀ (env2 : Env) f, 2 + 2 ≤ f →
        eval f (updateEnv env2 (MemorySnapshot.display ⟨1⟩) (.arr g))
          (load_from_addr 3 2 ⟨1⟩) = some (.bv (8 * 2) 4660)) :=
  (c4_store_load_round_trip c4St 3 2 (bv_hex 4660 2) ⟨0⟩ c4Env 4660 (fun _ => 0) 1
    (by decide) (by decide) (by decide)
    (fun f hf => match f, hf with | _ + 1, _ => rfl)
    rfl).2.2

end TC

namespace TC

theorem compareLoop_pops_bound (oracle : Oracle) :
    ∀ fuel (selfSt : VerifierState) (q : List PathState) o,
      compareLoop oracle fuel selfSt q = some o →
      o.pops ≤ q.length + 4 * o.condBrPops + o.callPops := by
  intro fuel
  induction fuel with
  | zero => intro selfSt q o ho; cases ho
  | succ fuel ih =>
    intro selfSt q o ho
    cases q with
    | nil =>
      simp only [compareLoop] at ho
      cases ho
      simp
    | cons p rest =>
      simp only [compareLoop] at ho
      split at ho
      · cases ho; simp
      next this1 lm le hrun1 =>
        split at ho
        · cases ho; simp
        next this2 rm re hrun2 =>
          split at ho
          next lop rop =>
            split at ho
            next e tr hcr => cases ho; simp
            next tr hcr => cases ho; simp
          next lrp lc rrp rc =>
            split at ho
            next e tr hcc => cases ho; simp
            next tr hcc =>
              split at ho
              · cases ho
              next o' ho' =>
                cases ho
                have := ih selfSt _ o' ho'
                simp only [List.length_append, List.length_cons, List.length_singleton,
                  List.length_nil] at this ⊢
                omega
          next lcond lt lf rcond rt rf =>
            split at ho
            · cases ho; simp
            next selfSt1 lcs hop1 =>
              split at ho
              · cases ho; simp
              next selfSt2 rcs hop2 =>
                split at ho
                · cases ho; simp
                next ltp hpos1 =>
                  split at ho
                  · cases ho; simp
                  next lfp hpos2 =>
                    split at ho
                    · cases ho; simp
                    next rtp hpos3 =>
                      split at ho
                      · cases ho; simp
                      next rfp hpos4 =>
                        split at ho
                        · cases ho
                        next o' ho' =>
                          cases ho
                          have := ih selfSt2 _ o' ho'
                          simp only [List.length_append, List.length_cons,
                            List.length_nil] at this ⊢
                          omega
          next lrp lc rop =>
            split at ho
            next e hcs => cases ho; simp
            next stc hcs =>
              split at ho
              · cases ho
              next o' ho' =>
                cases ho
                have := ih selfSt rest o' ho'
                simp only [List.length_cons] at *
                omega
          next lop rrp rc =>
            split at ho
            next e hcs => cases ho; simp
            next stc hcs =>
              split at ho
              · cases ho
              next o' ho' =>
                cases ho
                have := ih selfSt rest o' ho'
                simp only [List.length_cons] at *
                omega
          next hne1 hne2 hne3 =>
            cases ho
            simp

end TC

namespace TC

theorem runInstrs_effect_call (bbIdx : Nat) (instrs : List Instr) :
    ∀ (st : VerifierState) instrId m st' m' eff,
      runInstrs st bbIdx instrId instrs m = .ok (st', m', some eff) →
      ∃ rp c, eff = .Call rp c ∧ rp.bb = bbIdx ∧ instrId < rp.instr ∧
        rp.instr ≤ instrId + instrs.length := by
  induction instrs with
  | nil =>
    intro st instrId m st' m' eff h
    simp only [runInstrs, Except.ok.injEq, Prod.mk.injEq] at h
    cases h.2.2
  | cons i rest ih =>
    intro st instrId m st' m' eff h
    simp only [runInstrs, bind, Except.bind] at h
    split at h
    · cases h
    next x hx =>
      obtain ⟨sta, ma, eo⟩ := x
      cases eo with
      | some e2 =>
        simp only [Except.ok.injEq, Prod.mk.injEq] at h
        -- the only instruction arm producing an effect is the call arm
        cases i with
        | add o0 o1 dest =>
          simp only [runInstr, bind, Except.bind] at hx
          split at hx
          · cases hx
          next y hy =>
            obtain ⟨stb, mb⟩ := y
            simp only [Except.ok.injEq, Prod.mk.injEq] at hx
            cases hx.2.2
        | and o0 o1 dest =>
          simp only [runInstr, bind, Except.bind] at hx
          split at hx
          · cases hx
          next y hy =>
            obtain ⟨stb, mb⟩ := y
            simp only [Except.ok.injEq, Prod.mk.injEq] at hx
            cases hx.2.2
        | sub o0 o1 dest =>
          simp only [runInstr, bind, Except.bind] at hx
          split at hx
          · cases hx
          next y hy =>
            obtain ⟨stb, mb⟩ := y
            simp only [Except.ok.injEq, Prod.mk.injEq] at hx
            cases hx.2.2
        | icmp pred o0 o1 dest =>
          simp only [runInstr] at hx
          split at hx
          · cases hx
          next pr hpr =>
            simp only [bind, Except.bind] at hx
            split at hx
            · cases hx
            next y hy =>
              obtain ⟨stb, sb⟩ := y
              split at hx
              · cases hx
              next z hz =>
                obtain ⟨stc, sc⟩ := z
                simp only [Except.ok.injEq, Prod.mk.injEq] at hx
                cases hx.2.2
        | select c tv fv dest =>
          simp only [runInstr, bind, Except.bind] at hx
          split at hx
          · cases hx
          next y hy =>
            obtain ⟨stb, sb⟩ := y
            split at hx
            · cases hx
            next z hz =>
              obtain ⟨stc, sc⟩ := z
              split at hx
              · cases hx
              next w hw =>
                obtain ⟨std2, sd⟩ := w
                split at hx
                · cases hx
                next v hv =>
                  simp only [Except.ok.injEq, Prod.mk.injEq] at hx
                  cases hx.2.2
        | call c =>
          simp only [runInstr, Except.ok.injEq, Prod.mk.injEq] at hx
          obtain ⟨rfl, rfl, he⟩ := hx
          refine ⟨⟨bbIdx, instrId + 1⟩, c, ?_, rfl, Nat.lt_succ_self instrId, ?_⟩
          · have h5 := h.2.2
            rw [← he] at h5
            injection h5 with h6
            exact h6.symm
          · simp only [List.length_cons]
            omega
        | other r => cases hx
      | none =>
        obtain ⟨rp, c, h1, h2, h3, h4⟩ := ih sta (instrId + 1) ma st' m' eff h
        exact ⟨rp, c, h1, h2, by omega, by simp only [List.length_cons]; omega⟩

theorem run_until_effect_call_pos (st : VerifierState) (f : Function) (p : Position)
    (m : MemorySnapshot) (st' : VerifierState) (m' : MemorySnapshot) (rp : Position)
    (c : CallInst)
    (h : st.run_until_effect f p m = .ok (st', m', .Call rp c)) :
    rp.bb = p.bb ∧ p.instr < blockLen f p.bb ∧ p.instr < rp.instr ∧
      rp.instr ≤ blockLen f p.bb := by
  simp only [VerifierState.run_until_effect] at h
  split at h
  · cases h
  next bb hbb =>
    simp only [bind, Except.bind] at h
    split at h
    · cases h
    next x hx =>
      obtain ⟨sta, ma, eo⟩ := x
      cases eo with
      | some e2 =>
        simp only [Except.ok.injEq, Prod.mk.injEq] at h
        obtain ⟨rp2, c2, he, hbb2, hlt, hle⟩ :=
          runInstrs_effect_call p.bb _ st p.instr m sta ma e2 hx
        rw [he] at h
        obtain ⟨-, -, hc⟩ := h
        injection hc with hrp hcc
        subst hrp
        have hblock : blockLen f p.bb = bb.instrs.length := by
          rw [blockLen, hbb]
        rw [List.length_drop] at hle
        have hne : p.instr < bb.instrs.length := by omega
        exact ⟨hbb2, by omega, hlt, by omega⟩
      | none =>
        cases hterm : bb.term with
        | ret rop =>
          rw [hterm] at h
          simp at h
        | condBr c2 t2 e2 =>
          rw [hterm] at h
          simp at h
        | other r =>
          rw [hterm] at h
          simp at h

theorem run_until_effect_condbr_term (st : VerifierState) (f : Function) (p : Position)
    (m : MemorySnapshot) (st' : VerifierState) (m' : MemorySnapshot)
    (cond : Operand) (t e : Name)
    (h : st.run_until_effect f p m = .ok (st', m', .CondBr cond t e)) :
    ∃ bb, f.basic_blocks.get? p.bb = some bb ∧ bb.term = .condBr cond t e := by
  simp only [VerifierState.run_until_effect] at h
  split at h
  · cases h
  next bb hbb =>
    refine ⟨bb, hbb, ?_⟩
    simp only [bind, Except.bind] at h
    split at h
    · cases h
    next x hx =>
      obtain ⟨sta, ma, eo⟩ := x
      cases eo with
      | some e2 =>
        simp only [Except.ok.injEq, Prod.mk.injEq] at h
        obtain ⟨rp2, c2, he, _, _, _⟩ :=
          runInstrs_effect_call p.bb _ st p.instr m sta ma e2 hx
        subst he
        cases h.2.2
      | none =>
        cases hterm : bb.term with
        | ret rop =>
          rw [hterm] at h
          simp at h
        | condBr c2 t2 e2 =>
          rw [hterm] at h
          simp only [Except.ok.injEq, Prod.mk.injEq] at h
          obtain ⟨-, -, he⟩ := h
          injection he with h1 h2 h3
          rw [h1, h2, h3]
        | other r =>
          rw [hterm] at h
          simp at h

end TC

namespace TC

theorem mem_le_foldr_max (l : List Nat) (a : Nat) (h : a ∈ l) : a ≤ l.foldr max 0 := by
  induction l with
  | nil => cases h
  | cons b t ih =>
    rcases List.mem_cons.1 h with h1 | h1
    · rw [h1]
      exact le_max_left _ _
    · exact le_trans (ih h1) (le_max_right _ _)

theorem blockLen_le_maxInstrs (f : Function) (i : Nat)
    (h : i < f.basic_blocks.length) : blockLen f i ≤ maxInstrs f := by
  rw [blockLen]
  cases hget : f.basic_blocks.get? i with
  | none => exact Nat.zero_le _
  | some bb =>
    apply mem_le_foldr_max
    exact List.mem_map_of_mem _ (List.get?_mem hget)

theorem findIdxA_lt_length (l : List α) (p : α → Bool) (j : Nat)
    (h : findIdxA l p = some j) : j < l.length := by
  induction l generalizing j with
  | nil => cases h
  | cons a rest ih =>
    rw [findIdxA] at h
    by_cases hp : p a
    · rw [if_pos hp] at h
      cases h
      simp
    · rw [if_neg hp] at h
      cases hr : findIdxA rest p with
      | none => rw [hr] at h; cases h
      | some j2 =>
        rw [hr] at h
        simp at h
        have := ih j2 hr
        simp only [List.length_cons]
        omega

theorem sideMeasure_call_lt (f : Function) (rank : Nat → Nat) (p rp : Position)
    (h1 : rp.bb = p.bb) (h2 : p.instr < blockLen f p.bb)
    (h3 : p.instr < rp.instr) :
    sideMeasure f rank rp < sideMeasure f rank p := by
  unfold sideMeasure
  rw [h1]
  have : blockLen f p.bb - rp.instr < blockLen f p.bb - p.instr := by omega
  omega

theorem sideMeasure_br_lt (f : Function) (rank : Nat → Nat) (p : Position) (j : Nat)
    (hj : j < f.basic_blocks.length) (hr : rank j < rank p.bb) :
    sideMeasure f rank ⟨j, 0⟩ < sideMeasure f rank p := by
  unfold sideMeasure
  show rank j * (maxInstrs f + 1) + (blockLen f j - 0) <
    rank p.bb * (maxInstrs f + 1) + (blockLen f p.bb - p.instr)
  have hbl : blockLen f j ≤ maxInstrs f := blockLen_le_maxInstrs f j hj
  have h1 : rank j * (maxInstrs f + 1) + (blockLen f j - 0) <
      (rank j + 1) * (maxInstrs f + 1) := by
    rw [Nat.add_mul, Nat.one_mul]
    omega
  have h2 : (rank j + 1) * (maxInstrs f + 1) ≤ rank p.bb * (maxInstrs f + 1) :=
    Nat.mul_le_mul_right _ (by omega)
  omega

theorem blocksRanked_spec (f : Function) (rank : Nat → Nat) :
    ∀ (l : List BasicBlock) (i : Nat), blocksRanked f rank l i = true →
    ∀ k bb, l.get? k = some bb → ∀ cond t e, bb.term = .condBr cond t e →
      (∃ j, findIdxA f.basic_blocks (fun x => x.name == t) = some j ∧
        rank j < rank (i + k)) ∧
      (∃ j, findIdxA f.basic_blocks (fun x => x.name == e) = some j ∧
        rank j < rank (i + k)) := by
  intro l
  induction l with
  | nil => intro i h k bb hk; cases hk
  | cons bb0 rest ih =>
    intro i h k bb hk cond t e hterm
    rw [blocksRanked, Bool.and_eq_true] at h
    cases k with
    | zero =>
      simp only [List.get?_cons_zero, Option.some.injEq] at hk
      subst hk
      rw [hterm] at h
      have h1 := h.1
      rw [Bool.and_eq_true] at h1
      constructor
      · rcases hfi : findIdxA f.basic_blocks (fun x => x.name == t) with _ | j
        · rw [hfi] at h1
          cases h1.1
        · rw [hfi] at h1
          refine ⟨j, rfl, ?_⟩
          have := h1.1
          simp only [decide_eq_true_eq] at this
          simpa using this
      · rcases hfi : findIdxA f.basic_blocks (fun x => x.name == e) with _ | j
        · rw [hfi] at h1
          cases h1.2
        · rw [hfi] at h1
          refine ⟨j, rfl, ?_⟩
          have := h1.2
          simp only [decide_eq_true_eq] at this
          simpa using this
    | succ k =>
      simp only [List.get?_cons_succ] at hk
      have := ih (i + 1) h.2 k bb hk cond t e hterm
      rw [show i + 1 + k = i + (k + 1) from by omega] at this
      exact this

theorem loopFreeB_spec (f : Function) (rank : Nat → Nat) (h : loopFreeB f rank = true)
    (i : Nat) (bb : BasicBlock) (hget : f.basic_blocks.get? i = some bb)
    (cond : Operand) (t e : Name) (hterm : bb.term = .condBr cond t e) :
    (∃ j, findIdxA f.basic_blocks (fun x => x.name == t) = some j ∧ rank j < rank i) ∧
    (∃ j, findIdxA f.basic_blocks (fun x => x.name == e) = some j ∧ rank j < rank i) := by
  have := blocksRanked_spec f rank f.basic_blocks 0 h i bb hget cond t e hterm
  simpa using this

theorem queueMeasure_append (l r : Function) (rankL rankR : Nat → Nat)
    (q1 q2 : List PathState) :
    queueMeasure l r rankL rankR (q1 ++ q2) =
      queueMeasure l r rankL rankR q1 + queueMeasure l r rankL rankR q2 := by
  unfold queueMeasure
  rw [List.map_append, List.sum_append]

theorem queueMeasure_cons (l r : Function) (rankL rankR : Nat → Nat)
    (p : PathState) (q : List PathState) :
    queueMeasure l r rankL rankR (p :: q) =
      5 ^ pathMeasure l r rankL rankR p + queueMeasure l r rankL rankR q := by
  unfold queueMeasure
  rw [List.map_cons, List.sum_cons]

end TC

namespace TC

theorem compareLoop_terminates (oracle : Oracle) (L R : Function)
    (rankL rankR : Nat → Nat)
    (hL : loopFreeB L rankL = true) (hR : loopFreeB R rankR = true) :
    ∀ fuel (selfSt : VerifierState) (q : List PathState),
      selfSt.left = L → selfSt.right = R →
      queueMeasure L R rankL rankR q < fuel →
      (compareLoop oracle fuel selfSt q).isSome := by
  intro fuel
  induction fuel with
  | zero => intro selfSt q h1 h2 h3; omega
  | succ fuel ih =>
    intro selfSt q hLeft hRight hq
    cases q with
    | nil => simp [compareLoop]
    | cons p rest =>
      rw [queueMeasure_cons] at hq
      have hppos : 1 ≤ (5 : Nat) ^ pathMeasure L R rankL rankR p :=
        Nat.pow_pos (by omega)
      simp only [compareLoop]
      split
      · simp
      next this1 lm le hrun1 =>
        split
        · simp
        next this2 rm re hrun2 =>
          rw [hLeft] at hrun1
          rw [hRight] at hrun2
          split
          next lop rop =>
            split <;> simp
          next lrp lc rrp rc =>
            split
            · simp
            next tr hcc =>
              have hposL := run_until_effect_call_pos _ _ _ _ _ _ _ _ hrun1
              have hposR := run_until_effect_call_pos _ _ _ _ _ _ _ _ hrun2
              have hμL : sideMeasure L rankL lrp < sideMeasure L rankL p.left_pos :=
                sideMeasure_call_lt L rankL p.left_pos lrp hposL.1 hposL.2.1 hposL.2.2.1
              have hμR : sideMeasure R rankR rrp < sideMeasure R rankR p.right_pos :=
                sideMeasure_call_lt R rankR p.right_pos rrp hposR.1 hposR.2.1 hposR.2.2.1
              have hμ : pathMeasure L R rankL rankR ⟨this2, lm, rm, lrp, rrp⟩ <
                  pathMeasure L R rankL rankR p := by
                show sideMeasure L rankL lrp + sideMeasure R rankR rrp <
                  sideMeasure L rankL p.left_pos + sideMeasure R rankR p.right_pos
                omega
              have h5 : (5 : Nat) ^ pathMeasure L R rankL rankR ⟨this2, lm, rm, lrp, rrp⟩ <
                  5 ^ pathMeasure L R rankL rankR p :=
                Nat.pow_lt_pow_right (by omega) hμ
              have hqm : queueMeasure L R rankL rankR
                  (rest ++ [⟨this2, lm, rm, lrp, rrp⟩]) < fuel := by
                rw [queueMeasure_append, queueMeasure_cons]
                have hnil : queueMeasure L R rankL rankR [] = 0 := rfl
                omega
              have hrec := ih selfSt _ hLeft hRight hqm
              obtain ⟨o', ho'⟩ := Option.isSome_iff_exists.1 hrec
              rw [ho']
              simp
          next lcond lt lf rcond rt rf =>
            split
            · simp
            next selfSt1 lcs hop1 =>
              split
              · simp
              next selfSt2 rcs hop2 =>
                have hsl1 := operand_to_sexp_skel _ _ _ _ _ hop1
                have hsl2 := operand_to_sexp_skel _ _ _ _ _ hop2
                have hL2 : selfSt2.left = L := by
                  rw [hsl2.2.1, hsl1.2.1, hLeft]
                have hR2 : selfSt2.right = R := by
                  rw [hsl2.2.2, hsl1.2.2, hRight]
                obtain ⟨bbL, hbbL, htermL⟩ :=
                  run_until_effect_condbr_term _ _ _ _ _ _ _ _ _ hrun1
                obtain ⟨bbR, hbbR, htermR⟩ :=
                  run_until_effect_condbr_term _ _ _ _ _ _ _ _ _ hrun2
                obtain ⟨⟨jlt, hjlt, hrlt⟩, ⟨jlf, hjlf, hrlf⟩⟩ :=
                  loopFreeB_spec L rankL hL _ bbL hbbL lcond lt lf htermL
                obtain ⟨⟨jrt, hjrt, hrrt⟩, ⟨jrf, hjrf, hrrf⟩⟩ :=
                  loopFreeB_spec R rankR hR _ bbR hbbR rcond rt rf htermR
                split
                · simp
                next ltp hpos1 =>
                  split
                  · simp
                  next lfp hpos2 =>
                    split
                    · simp
                    next rtp hpos3 =>
                      split
                      · simp
                      next rfp hpos4 =>
                        rw [hL2] at hpos1 hpos2
                        rw [hR2] at hpos3 hpos4
                        have hltp : ltp = ⟨jlt, 0⟩ := by
                          unfold pos_of_bb_name at hpos1
                          rw [hjlt] at hpos1
                          simp only [Except.ok.injEq] at hpos1
                          exact hpos1.symm
                        have hlfp : lfp = ⟨jlf, 0⟩ := by
                          unfold pos_of_bb_name at hpos2
                          rw [hjlf] at hpos2
                          simp only [Except.ok.injEq] at hpos2
                          exact hpos2.symm
                        have hrtp : rtp = ⟨jrt, 0⟩ := by
                          unfold pos_of_bb_name at hpos3
                          rw [hjrt] at hpos3
                          simp only [Except.ok.injEq] at hpos3
                          exact hpos3.symm
                        have hrfp : rfp = ⟨jrf, 0⟩ := by
                          unfold pos_of_bb_name at hpos4
                          rw [hjrf] at hpos4
                          simp only [Except.ok.injEq] at hpos4
                          exact hpos4.symm
                        have hsLt : sideMeasure L rankL ltp <
                            sideMeasure L rankL p.left_pos := by
                          rw [hltp]
                          exact sideMeasure_br_lt L rankL p.left_pos jlt
                            (findIdxA_lt_length _ _ _ hjlt) hrlt
                        have hsLf : sideMeasure L rankL lfp <
                            sideMeasure L rankL p.left_pos := by
                          rw [hlfp]
                          exact sideMeasure_br_lt L rankL p.left_pos jlf
                            (findIdxA_lt_length _ _ _ hjlf) hrlf
                        have hsRt : sideMeasure R rankR rtp <
                            sideMeasure R rankR p.right_pos := by
                          rw [hrtp]
                          exact sideMeasure_br_lt R rankR p.right_pos jrt
                            (findIdxA_lt_length _ _ _ hjrt) hrrt
                        have hsRf : sideMeasure R rankR rfp <
                            sideMeasure R rankR p.right_pos := by
                          rw [hrfp]
                          exact sideMeasure_br_lt R rankR p.right_pos jrf
                            (findIdxA_lt_length _ _ _ hjrf) hrrf
                        have hμp : pathMeasure L R rankL rankR p =
                            sideMeasure L rankL p.left_pos +
                            sideMeasure R rankR p.right_pos := rfl
                        have hμ1 : 1 ≤ pathMeasure L R rankL rankR p := by
                          rw [hμp]
                          omega
                        have hsplit5 : (5 : Nat) ^ pathMeasure L R rankL rankR p =
                            5 * 5 ^ (pathMeasure L R rankL rankR p - 1) := by
                          conv_lhs => rw [show pathMeasure L R rankL rankR p =
                            (pathMeasure L R rankL rankR p - 1) + 1 from by omega]
                          rw [pow_succ]
                          ring
                        have hb : ∀ (s1 : VerifierState) (pl pr : Position),
                            sideMeasure L rankL pl < sideMeasure L rankL p.left_pos →
                            sideMeasure R rankR pr < sideMeasure R rankR p.right_pos →
                            (5 : Nat) ^ pathMeasure L R rankL rankR ⟨s1, lm, rm, pl, pr⟩ ≤
                              5 ^ (pathMeasure L R rankL rankR p - 1) := by
                          intro s1 pl pr hpl hpr
                          apply Nat.pow_le_pow_right (by omega)
                          show sideMeasure L rankL pl + sideMeasure R rankR pr ≤ _
                          rw [hμp] at *
                          omega
                        have hqm : queueMeasure L R rankL rankR (rest ++
                            [⟨(this2.add_z3_line (Sexp.s2 "assert" (Sexp.s2 "not"
                                (Sexp.s3 "=" lcs "#x00")))).add_z3_line
                                (Sexp.s2 "assert" (Sexp.s2 "not" (Sexp.s3 "=" rcs "#x00"))),
                              lm, rm, ltp, rtp⟩,
                             ⟨(this2.add_z3_line (Sexp.s2 "assert" (Sexp.s2 "not"
                                (Sexp.s3 "=" lcs "#x00")))).add_z3_line
                                (Sexp.s2 "assert" (Sexp.s3 "=" rcs "#x00")),
                              lm, rm, ltp, rfp⟩,
                             ⟨(this2.add_z3_line (Sexp.s2 "assert"
                                (Sexp.s3 "=" lcs "#x00"))).add_z3_line
                                (Sexp.s2 "assert" (Sexp.s2 "not" (Sexp.s3 "=" rcs "#x00"))),
                              lm, rm, lfp, rtp⟩,
                             ⟨(this2.add_z3_line (Sexp.s2 "assert"
                                (Sexp.s3 "=" lcs "#x00"))).add_z3_line
                                (Sexp.s2 "assert" (Sexp.s3 "=" rcs "#x00")),
                              lm, rm, lfp, rfp⟩]) < fuel := by
                          rw [queueMeasure_append, queueMeasure_cons, queueMeasure_cons,
                            queueMeasure_cons, queueMeasure_cons]
                          have hnil : queueMeasure L R rankL rankR [] = 0 := rfl
                          have h1 := hb ((this2.add_z3_line (Sexp.s2 "assert" (Sexp.s2 "not"
                            (Sexp.s3 "=" lcs "#x00")))).add_z3_line
                            (Sexp.s2 "assert" (Sexp.s2 "not" (Sexp.s3 "=" rcs "#x00"))))
                            ltp rtp hsLt hsRt
                          have h2 := hb ((this2.add_z3_line (Sexp.s2 "assert" (Sexp.s2 "not"
                            (Sexp.s3 "=" lcs "#x00")))).add_z3_line
                            (Sexp.s2 "assert" (Sexp.s3 "=" rcs "#x00")))
                            ltp rfp hsLt hsRf
                          have h3 := hb ((this2.add_z3_line (Sexp.s2 "assert"
                            (Sexp.s3 "=" lcs "#x00"))).add_z3_line
                            (Sexp.s2 "assert" (Sexp.s2 "not" (Sexp.s3 "=" rcs "#x00"))))
                            lfp rtp hsLf hsRt
                          have h4 := hb ((this2.add_z3_line (Sexp.s2 "assert"
                            (Sexp.s3 "=" lcs "#x00"))).add_z3_line
                            (Sexp.s2 "assert" (Sexp.s3 "=" rcs "#x00")))
                            lfp rfp hsLf hsRf
                          omega
                        have hrec := ih selfSt2 _ hL2 hR2 hqm
                        obtain ⟨o', ho'⟩ := Option.isSome_iff_exists.1 hrec
                        rw [ho']
                        simp
          next lrp lc rop =>
            split
            · simp
            next stc hcs =>
              have hqm : queueMeasure L R rankL rankR rest < fuel := by omega
              have hrec := ih selfSt rest hLeft hRight hqm
              obtain ⟨o', ho'⟩ := Option.isSome_iff_exists.1 hrec
              rw [ho']
              simp
          next lop rrp rc =>
            split
            · simp
            next stc hcs =>
              have hqm : queueMeasure L R rankL rankR rest < fuel := by omega
              have hrec := ih selfSt rest hLeft hRight hqm
              obtain ⟨o', ho'⟩ := Option.isSome_iff_exists.1 hrec
              rw [ho']
              simp
          next hne1 hne2 hne3 =>
            simp

end TC

namespace TC

/-- C6 (amended): the engine terminates on loop-free pairs — whenever the
two functions admit block rankings that strictly decrease along every
`condBr` edge (equivalently, their branch graphs are acyclic), the driver
loop completes within some finite fuel from any queue; and for every
completed run the number of queue pops is bounded by the initial queue
length plus 4 per matched CondBr pair plus 1 per matched call pair — not by
`4 ^ (number of matched CondBr pairs)`, which the counterexample refutes.
(`run_until_effect` itself is a total function of this development: it
always returns, as it never leaves the current basic block.) -/
theorem c6_termination :
    (∀ (oracle : Oracle) (selfSt : VerifierState) (q : List PathState)
      (rankL rankR : Nat → Nat),
      loopFreeB selfSt.left rankL = true → loopFreeB selfSt.right rankR = true →
      ∃ fuel, (compareLoop oracle fuel selfSt q).isSome) ∧
    (∀ (oracle : Oracle) (fuel : Nat) (selfSt : VerifierState) (q : List PathState) o,
      compareLoop oracle fuel selfSt q = some o →
      o.pops ≤ q.length + 4 * o.condBrPops + o.callPops) :=
  ⟨fun oracle selfSt q rankL rankR hL hR =>
    ⟨queueMeasure selfSt.left selfSt.right rankL rankR q + 1,
      compareLoop_terminates oracle selfSt.left selfSt.right rankL rankR hL hR
        _ selfSt q rfl rfl (by omega)⟩,
   compareLoop_pops_bound⟩

/-- C6 witness: the branching pair is loop-free under the rank `3 - i`, so
the loop completes with some fuel; and the completed call-pair run satisfies
the corrected pop bound with equality (2 pops = 1 + 4·0 + 1). -/
theorem c6_witness :
    (∃ fuel, (compareLoop oracleTrue fuel (VerifierState.new exBrLeft exBrRight)
      [⟨VerifierState.new exBrLeft exBrRight, ⟨0⟩, ⟨0⟩, ⟨0, 0⟩, ⟨0, 0⟩⟩]).isSome) ∧
    c6wOut.pops ≤ 1 + 4 * c6wOut.condBrPops + c6wOut.callPops :=
  ⟨c6_termination.1 oracleTrue (VerifierState.new exBrLeft exBrRight)
      [⟨VerifierState.new exBrLeft exBrRight, ⟨0⟩, ⟨0⟩, ⟨0, 0⟩, ⟨0, 0⟩⟩]
      exBrRank exBrRank (by decide) (by decide),
   c6_termination.2 oracleTrue 10 exState [⟨exState, ⟨0⟩, ⟨0⟩, ⟨0, 0⟩, ⟨0, 0⟩⟩]
      c6wOut rfl⟩

end TC
